import Mathlib

/-!
Verification of the market-rader weekly competitive-intelligence pipeline.

This file shallowly embeds the core pure logic of the repository
(`src/research/seenHistory.ts`, `augment.ts`, `fallbackFill.ts`,
`urlCheck.ts`, `sourcesSchema.ts`, `gemini.ts`) as executable Lean
definitions and proves or refutes the specification claims about them.

Conventions used throughout:
* TypeScript strings are Lean `String`; internal character work uses
  `List Char` (a `String` is definitionally its list of characters).
* JavaScript `undefined`-able fields become `Option`; JavaScript
  truthiness of a string (`""` and `undefined` are falsy) is modelled as
  `(o.getD "") = ""`.
* The WHATWG `URL` platform object is modelled by `JsUrl` below: a
  hierarchical `scheme://host/path?query#fragment` record.  The model
  performs no percent-encoding and no host case-folding; it captures the
  component structure that the repository's normalisation and allow-list
  code relies on.
* JavaScript `Set`/`Map` iteration order is insertion order; they are
  modelled as lists deduplicated on first occurrence / association lists.
-/

/-! ## Character-list utilities -/

/-- Split a character list at the first occurrence of `c`; returns the
part before it and, when found, the part after it. -/

def splitFirst (c : Char) : List Char → List Char × Option (List Char)
  | [] => ([], none)
  | x :: xs =>
    if x = c then ([], some xs)
    else
      let r := splitFirst c xs
      (x :: r.1, r.2)

/-- Split a character list at every occurrence of `c` (like the
JavaScript string split): `splitAll c [] = [[]]`. -/

def splitAll (c : Char) : List Char → List (List Char)
  | [] => [[]]
  | x :: xs =>
    if x = c then [] :: splitAll c xs
    else
      match splitAll c xs with
      | [] => [[x]]
      | a :: rest => (x :: a) :: rest

/-! ## WHATWG `URL` model

The repository canonicalises URLs with the platform `URL` class
(`seenHistory.ts` `normalizeUrlForDedupe`, `gemini.ts` `normalizeUrl`).
`JsUrl` models the hierarchical `scheme://host/path?query#fragment`

structure those functions rely on; parsing splits at the first `#`, then
the first `?`, then the first `/`, exactly as the component accessors
behave on already-parsed http(s)-style URLs. -/

def schemeChar (c : Char) : Bool :=
  c.isAlpha || c.isDigit || c = '+' || c = '-' || c = '.'

def schemeOk (s : List Char) : Bool :=
  match s with
  | [] => false
  | c :: rest => c.isAlpha && rest.all schemeChar

structure JsUrl where
  scheme : List Char
  host : List Char
  pathname : List Char
  search : Option (List Char)
  hash : Option (List Char)
deriving DecidableEq, Repr

/-- Model of `new URL(s)` for hierarchical (`scheme://…`) URLs: fails on
strings without a `scheme://host` shape (the repository only feeds it
http(s)-style URLs).  No percent-encoding or host case-folding is
modelled. -/

def parseUrlChars (cs : List Char) : Option JsUrl :=
  match splitFirst ':' cs with
  | (_, none) => none
  | (sch, some rest) =>
    match rest with
    | r1 :: r2 :: rest2 =>
      if r1 = '/' ∧ r2 = '/' ∧ schemeOk sch then
        let bh := splitFirst '#' rest2
        let bq := splitFirst '?' bh.1
        let hp := splitFirst '/' bq.1
        if hp.1.isEmpty then none
        else some { scheme := sch, host := hp.1, pathname := '/' :: (hp.2.getD []),
                    search := bq.2, hash := bh.2 }
      else none
    | _ => none

/-- Model of `URL.prototype.toString` on `JsUrl`. -/

def serializeUrl (u : JsUrl) : List Char :=
  u.scheme ++ ':' :: '/' :: '/' :: u.host ++ u.pathname
    ++ (match u.search with | some q => '?' :: q | none => [])
    ++ (match u.hash with | some h => '#' :: h | none => [])

/-- `URLSearchParams` serialisation of one `name=value` pair. -/

def serializePair (p : List Char × List Char) : List Char :=
  p.1 ++ '=' :: p.2

/-- `URLSearchParams.prototype.toString` for a list of pairs. -/

def serializeParams : List (List Char × List Char) → List Char
  | [] => []
  | [p] => serializePair p
  | p :: ps => serializePair p ++ '&' :: serializeParams ps

/-- One `name=value` segment of a query string (split at the first `=`;
a segment without `=` gets an empty value, as `URLSearchParams` does). -/

def parseSeg (seg : List Char) : List Char × List Char :=
  match splitFirst '=' seg with
  | (n, some v) => (n, v)
  | (n, none) => (n, [])

/-- `URLSearchParams` parsing of a query string (sans `?`): split at `&`,
drop empty segments, split each segment at the first `=`. -/

def parseParams (cs : List Char) : List (List Char × List Char) :=
  ((splitAll '&' cs).filter (fun seg => ¬ seg.isEmpty)).map parseSeg

def lowerChars (l : List Char) : List Char := l.map Char.toLower

def charsStartWith : List Char → List Char → Bool
  | [], _ => true
  | _ :: _, [] => false
  | a :: as, b :: bs => a = b && charsStartWith as bs

/-- `key.toLowerCase().startsWith("utm_")` from `normalizeUrlForDedupe`. -/

def isUtmKey (k : List Char) : Bool :=
  charsStartWith ['u', 't', 'm', '_'] (lowerChars k)

/-- `pathname.replace(/\/+$/, "")`: drop the trailing run of slashes. -/

def dropTrailingSlashes (l : List Char) : List Char :=
  (l.reverse.dropWhile (fun c => c = '/')).reverse

/-- First query rewrite of `normalizeUrlForDedupe`: delete every `utm_*`
parameter.  When at least one deletion happens, `URLSearchParams`
re-serialises the query (an all-deleted query becomes `none`); otherwise
the raw search string is left untouched. -/

def deleteUtmParams (search : Option (List Char)) : Option (List Char) :=
  let ps := parseParams (search.getD [])
  if ps.any (fun p => isUtmKey p.1) then
    let kept := ps.filter (fun p => !isUtmKey p.1)
    if kept.isEmpty then none else some (serializeParams kept)
  else search

/-- Second query rewrite of `normalizeUrlForDedupe`:
`if (!u.searchParams.toString()) u.search = ""`. -/

def clearEmptySearch (search : Option (List Char)) : Option (List Char) :=
  if (serializeParams (parseParams (search.getD []))).isEmpty then none
  else search

/-- The combined query rewrite performed by `normalizeUrlForDedupe`. -/

def normSearchStep (search : Option (List Char)) : Option (List Char) :=
  clearEmptySearch (deleteUtmParams search)

/-- The pathname rewrite of `normalizeUrlForDedupe`: for a non-root path,
strip the trailing run of slashes; assigning an empty pathname on an
http(s) URL yields `/` (JS pathname setter behaviour). -/

def normPathname (p : List Char) : List Char :=
  if p.length > 1 then
    let p' := dropTrailingSlashes p
    if p'.isEmpty then ['/'] else p'
  else p

/-- The parsed-URL part of `normalizeUrlForDedupe`: clear the fragment,
delete `utm_*` params, clear an empty leftover query, collapse a
non-root trailing slash. -/

def normalizeJsUrl (u : JsUrl) : JsUrl :=
  { u with hash := none, search := normSearchStep u.search,
           pathname := normPathname u.pathname }

/-- `s.trim()`: drop leading and trailing whitespace. -/
def jsTrim (s : String) : String :=
  String.mk ((s.data.dropWhile Char.isWhitespace).reverse.dropWhile
    Char.isWhitespace).reverse

/-- `normalizeUrlForDedupe` from `src/research/seenHistory.ts`
(lines 16–29): canonicalise via the URL model when the URL parses, and
fall back to `url.trim()` when it does not. -/

def normalizeUrlForDedupe (url : String) : String :=
  match parseUrlChars url.data with
  | some u => String.mk (serializeUrl (normalizeJsUrl u))
  | none => jsTrim url

/-- `normalizeUrl` from `src/research/gemini.ts` (lines 177–191) is
textually identical to `normalizeUrlForDedupe`. -/

def normalizeUrl : String → String := normalizeUrlForDedupe

/-! ### URL well-formedness, roundtrip, and idempotence -/

/-- The invariants that parsing establishes on a `JsUrl` record. -/

def urlWf (u : JsUrl) : Prop :=
  schemeOk u.scheme = true ∧
  u.host ≠ [] ∧ '/' ∉ u.host ∧ '?' ∉ u.host ∧ '#' ∉ u.host ∧
  (∃ p, u.pathname = '/' :: p) ∧ '?' ∉ u.pathname ∧ '#' ∉ u.pathname ∧
  (∀ q, u.search = some q → '#' ∉ q)

/-- The query fraction of a URL serialisation. -/

def queryPart (s : Option (List Char)) : List Char :=
  match s with | some q => '?' :: q | none => []

/-- The fragment fraction of a URL serialisation. -/

def fragPart (h : Option (List Char)) : List Char :=
  match h with | some hv => '#' :: hv | none => []

/-! ## Generic string and JS-collection helpers -/

/-- JS string truthiness for an optional string: `undefined` and `""`
are falsy. -/
def truthy (o : Option String) : Bool := (o.getD "") != ""

/-- Lower-case a string character-wise (ASCII case folding, which covers
every comparison the repository performs). -/
def strToLower (s : String) : String := String.mk (lowerChars s.data)


/-- `needle` occurs as a contiguous substring of the haystack. -/
def charsContainSub (needle : List Char) : List Char → Bool
  | [] => needle.isEmpty
  | x :: xs => charsStartWith needle (x :: xs) || charsContainSub needle xs

/-- `hay.includes(needle)`. -/
def strContains (hay needle : String) : Bool := charsContainSub needle.data hay.data

/-- `s.startsWith(pre)`. -/
def strStartsWith (s pre : String) : Bool := charsStartWith pre.data s.data

/-- `s.endsWith(suf)`. -/
def strEndsWith (s suf : String) : Bool :=
  charsStartWith suf.data.reverse s.data.reverse

/-- First-match lookup in a JS object modelled as an association list. -/
def lookupAssoc {α : Type} (m : List (String × α)) (k : String) : Option α :=
  (m.find? (fun e => e.1 = k)).map (fun e => e.2)

/-- `obj[k] = v` on a JS object: an existing key keeps its position, a
new key is appended at the end. -/
def setAssoc {α : Type} (m : List (String × α)) (k : String) (v : α) :
    List (String × α) :=
  if m.any (fun e => e.1 = k) then
    m.map (fun e => if e.1 = k then (k, v) else e)
  else m ++ [(k, v)]

/-- JS `Set` built from a list: deduplicate keeping first occurrences
(insertion order). -/
def dedupeKeepFirstAux (seen : List String) : List String → List String
  | [] => []
  | x :: xs =>
    if seen.contains x then dedupeKeepFirstAux seen xs
    else x :: dedupeKeepFirstAux (seen ++ [x]) xs

/-- `Array.from(new Set(l))`. -/
def dedupeKeepFirst (l : List String) : List String := dedupeKeepFirstAux [] l

/-- JS `Map` grouping: key order is first occurrence, values keep
encounter order. -/
def groupByKey {α : Type} (key : α → String) (l : List α) :
    List (String × List α) :=
  l.foldl (fun acc s =>
    let k := key s
    if acc.any (fun e => e.1 = k) then
      acc.map (fun e => if e.1 = k then (e.1, e.2 ++ [s]) else e)
    else acc ++ [(k, [s])]) []

/-! ## Company-name normalisation (`augment.ts`, `fallbackFill.ts`) -/

/-- Chars after the first `)`, or `none` when there is no `)`. -/
def dropUpToClose : List Char → Option (List Char)
  | [] => none
  | c :: rest => if c = ')' then some rest else dropUpToClose rest

/-- One global pass of `replace(/\s*\([^)]*\)\s*/g, " ")`: each
whitespace-wrapped parenthetical becomes a single space.  `pending`
holds whitespace (reversed) that may belong to an upcoming match; the
fuel is bounded by the input length. -/
def stripParensAux : Nat → List Char → List Char → List Char
  | 0, pending, l => pending.reverse ++ l
  | _ + 1, pending, [] => pending.reverse
  | fuel + 1, pending, c :: rest =>
    if c.isWhitespace then stripParensAux fuel (c :: pending) rest
    else if c = '(' then
      match dropUpToClose rest with
      | some after => ' ' :: stripParensAux fuel [] (after.dropWhile Char.isWhitespace)
      | none => pending.reverse ++ c :: rest
    else pending.reverse ++ c :: stripParensAux fuel [] rest

/-- `s.replace(/\s*\([^)]*\)\s*/g, " ")`. -/
def stripParens (l : List Char) : List Char :=
  stripParensAux (l.length + 1) [] l

/-- Collapse every whitespace run to one space (`replace(/\s+/g, " ")`). -/
def collapseWs : List Char → List Char
  | [] => []
  | [x] => if x.isWhitespace then [' '] else [x]
  | x :: y :: rest =>
    if x.isWhitespace && y.isWhitespace then collapseWs (y :: rest)
    else (if x.isWhitespace then ' ' else x) :: collapseWs (y :: rest)

/-- `normalizeCompany` from `src/research/augment.ts` (lines 3–9): trim,
drop parentheticals, collapse whitespace, lower-case. -/
def normalizeCompanyAug (company : String) : String :=
  strToLower (String.mk (collapseWs (stripParens (jsTrim company).data)))

/-- `normalizeCompanyKey`, defined identically in
`src/research/augment.ts` (lines 94–99) and
`src/research/fallbackFill.ts` (lines 10–15): trim, drop
parentheticals, keep the text before the first em-dash and before the
first hyphen, trim. -/
def normalizeCompanyKey (company : String) : String :=
  let s1 := jsTrim (String.mk (stripParens (jsTrim company).data))
  let s2 := (splitFirst '—' s1.data).1
  let s3 := (splitFirst '-' s2).1
  jsTrim (String.mk s3)

/-- `hasHangul` (`augment.ts` lines 11–13): any char in U+AC00–U+D7AF. -/
def hasHangul (s : String) : Bool :=
  s.data.any (fun c => decide (0xAC00 ≤ c.toNat) && decide (c.toNat ≤ 0xD7AF))

/-- `hasLatin` (`augment.ts` lines 15–17): any ASCII letter. -/
def hasLatin (s : String) : Bool := s.data.any Char.isAlpha

/-- The `title.trim().toLowerCase()` fraction of the dedup keys. -/
def titleKeyPart (t : String) : String := strToLower (jsTrim t)

/-- `augment.ts` dedup key `normalizeCompany(c) + "|" + title key`. -/
def augKey (company title : String) : String :=
  normalizeCompanyAug company ++ "|" ++ titleKeyPart title

/-- `fallbackFill.ts` dedup key `normalizeCompanyKey(c) + "|" + title key`. -/
def fbKey (company title : String) : String :=
  normalizeCompanyKey company ++ "|" ++ titleKeyPart title

/-! ## Report data model

Modelled from the spec: the current `WeeklyReportSchema` — the version
carrying `company_homepages`, `overseas_competitor_updates` (update plus
optional `country`) alongside the highlight/category/hiring sections —
is not among the schema files under `src/` (the copies there predate the
overseas section); the shape below follows spec §3 and the field usage
in `augment.ts`, `fallbackFill.ts`, `seenHistory.ts` and `gemini.ts`. -/

structure Highlight where
  company : String
  category : String
  title : String
  insight : String
  importance_score : Int
  link : Option String
deriving DecidableEq, Repr

structure CategoryUpdate where
  company : String
  tag : String
  title : String
  url : Option String
  insight : Option String
deriving DecidableEq, Repr

structure OverseasUpdate where
  company : String
  country : Option String
  category : Option String
  tag : String
  title : String
  url : Option String
  insight : Option String
deriving DecidableEq, Repr

structure HiringSignal where
  company : String
  position : String
  strategic_inference : String
  url : Option String
deriving DecidableEq, Repr

structure WeeklyReport where
  report_date : String
  week_number : Int
  company_homepages : List (String × String)
  top_highlights : List Highlight
  category_updates : List (String × List CategoryUpdate)
  overseas_competitor_updates : List OverseasUpdate
  hiring_signals : List HiringSignal
  action_items : List String
deriving DecidableEq, Repr

/-- Modelled from the spec: `WeeklyReportSchema.parse` on an
already-structured report.  Spec §3 makes every stage a total
copy-in/copy-out transform whose output re-validates; the zod parse
applies defaults and placeholder coercions only to raw JSON input and
leaves structurally valid items unchanged, so on `WeeklyReport` values
it is the identity. -/
def weeklyReportSchemaParse (r : WeeklyReport) : WeeklyReport := r

/-! ## Headquarters / origin helpers (`augment.ts`, `fallbackFill.ts`) -/

/-- `new URL(url).hostname.toLowerCase()`: the host with any userinfo
and port stripped, lower-cased; `none` when the URL does not parse. -/
def urlHostnameLower (url : String) : Option String :=
  match parseUrlChars url.data with
  | none => none
  | some u =>
    let afterAt := (splitAll '@' u.host).getLastD []
    some (String.mk (lowerChars (splitFirst ':' afterAt).1))

/-- `getCompanyHomepageHost` (`augment.ts` lines 19–27). -/
def getCompanyHomepageHost (report : WeeklyReport) (company : String) :
    Option String :=
  match lookupAssoc report.company_homepages company with
  | none => none
  | some url => if url == "" then none else urlHostnameLower url

/-- `isLikelyNonKoreanCompany` (`augment.ts` lines 29–38): Hangul names
are domestic; a known `.kr` homepage is domestic; otherwise any Latin
letter marks the name as likely non-Korean. -/
def isLikelyNonKoreanCompany (company : String)
    (report : Option WeeklyReport := none) : Bool :=
  if hasHangul company then false
  else
    let host := match report with
      | some r => getCompanyHomepageHost r company
      | none => none
    match host with
    | some h => if h != "" && strEndsWith h ".kr" then false else hasLatin company
    | none => hasLatin company

/-- `isKoreaCountryLabel`, identical in `augment.ts` (lines 89–92) and
`fallbackFill.ts` (lines 17–20). -/
def isKoreaCountryLabel (country : String) : Bool :=
  let c := strToLower (jsTrim country)
  c == "korea" || c == "south korea" || c == "republic of korea" || c == "kr"

/-- `getCountry`, identical in `augment.ts` (closure in
`splitOverseasFromCategoryUpdatesByHq`, lines 113–120) and
`fallbackFill.ts` (lines 22–29): try the literal name, then the
normalised key; a present but blank value falls through. -/
def getCountry (companyHq : List (String × String)) (company : String) :
    Option String :=
  let tryOne := fun (c : String) =>
    match lookupAssoc companyHq c with
    | some v => if jsTrim v == "" then none else some (jsTrim v)
    | none => none
  match tryOne company with
  | some v => some v
  | none => tryOne (normalizeCompanyKey company)

/-- `isLikelyKoreanCompany` (`fallbackFill.ts` lines 31–35). -/
def isLikelyKoreanCompany (company : String)
    (companyHq : List (String × String)) : Bool :=
  match getCountry companyHq company with
  | some c => isKoreaCountryLabel c
  | none => !(isLikelyNonKoreanCompany company none)

/-! ## Weekly dedup ledger (`src/research/seenHistory.ts`) -/

structure WeekEntry where
  urls : List String
  updated_at : Option String
deriving DecidableEq, Repr

structure SeenHistory where
  weeks : List (String × WeekEntry)
deriving DecidableEq, Repr

/-- `getSeenUrlSetForWeek` (lines 57–60): normalise the week's URLs and
drop empties (`filter(Boolean)`); set membership is list membership. -/
def getSeenUrlSetForWeek (history : SeenHistory) (weekKey : String) :
    List String :=
  ((((lookupAssoc history.weeks weekKey).map WeekEntry.urls).getD []).map
      normalizeUrlForDedupe).filter (fun s => s != "")

/-- `collectReportUrls` (lines 62–71): every truthy link/url of every
section, in section order. -/
def collectReportUrls (report : WeeklyReport) : List String :=
  (report.top_highlights.filter (fun h => truthy h.link)).map
      (fun h => h.link.getD "")
    ++ (report.category_updates.flatMap (fun e =>
        (e.2.filter (fun u => truthy u.url)).map (fun u => u.url.getD "")))
    ++ (report.overseas_competitor_updates.filter (fun u => truthy u.url)).map
      (fun u => u.url.getD "")
    ++ (report.hiring_signals.filter (fun h => truthy h.url)).map
      (fun h => h.url.getD "")

/-- `isNew` from `filterReportBySeenUrls` (lines 74–77): a falsy link is
always new; otherwise the canonical form must be unseen. -/
def isNewUrl (seen : List String) (url : Option String) : Bool :=
  if truthy url then !(seen.contains (normalizeUrlForDedupe (url.getD "")))
  else true

/-- `filterReportBySeenUrls` (lines 73–87). -/
def filterReportBySeenUrls (report : WeeklyReport) (seen : List String) :
    WeeklyReport :=
  { report with
    top_highlights := report.top_highlights.filter (fun h => isNewUrl seen h.link),
    category_updates := report.category_updates.map
      (fun e => (e.1, e.2.filter (fun u => isNewUrl seen u.url))),
    overseas_competitor_updates :=
      report.overseas_competitor_updates.filter (fun u => isNewUrl seen u.url),
    hiring_signals := report.hiring_signals.filter (fun h => isNewUrl seen h.url) }

/-- The pre-prune half of `addReportUrlsToHistory` (lines 109–115):
union the report's canonical URLs into the week's entry and stamp it. -/
def updateWeeks (history : SeenHistory) (weekKey : String)
    (report : WeeklyReport) (now : String) : SeenHistory :=
  let urls := ((collectReportUrls report).map normalizeUrlForDedupe).filter
    (fun s => s != "")
  let existing := (((lookupAssoc history.weeks weekKey).map WeekEntry.urls).getD
    []).map normalizeUrlForDedupe
  ⟨setAssoc history.weeks weekKey ⟨dedupeKeepFirst (existing ++ urls), some now⟩⟩

/-- Lexicographic order on character lists by code point, the order of
the JS default `Array.sort` comparator on (BMP) strings. -/
def charsLe : List Char → List Char → Bool
  | [], _ => true
  | _ :: _, [] => false
  | a :: as, b :: bs =>
    if a = b then charsLe as bs else decide (a.toNat < b.toNat)

/-- `a <= b` for the JS string sort. -/
def strLe (a b : String) : Bool := charsLe a.data b.data

/-- The retention half of `addReportUrlsToHistory` (lines 117–122): sort
the week keys, drop the oldest beyond the window (deletion preserves the
order of the surviving entries). -/
def pruneWeeks (weeks : List (String × WeekEntry)) (keepWeeks : Nat) :
    List (String × WeekEntry) :=
  let keys := weeks.map Prod.fst
  if keys.length > keepWeeks then
    let dropped := (List.insertionSort (fun a b => strLe a b = true) keys).take
      (keys.length - keepWeeks)
    weeks.filter (fun e => !(dropped.contains e.1))
  else weeks

/-- `addReportUrlsToHistory` (lines 103–125); `now` stands for
`new Date().toISOString()`. -/
def addReportUrlsToHistory (history : SeenHistory) (weekKey : String)
    (report : WeeklyReport) (keepWeeks : Nat) (now : String) : SeenHistory :=
  ⟨pruneWeeks (updateWeeks history weekKey report now).weeks keepWeeks⟩

/-! ## Origin classifier (`src/research/augment.ts`) -/

/-- The keep condition of `splitOverseasFromCategoryUpdatesByHq`: kept
in its category iff the HQ is unknown or domestic. -/
def keepDomestic (companyHq : List (String × String)) (u : CategoryUpdate) :
    Bool :=
  match getCountry companyHq u.company with
  | none => true
  | some c => isKoreaCountryLabel c

/-- The per-item loop of `splitOverseasFromCategoryUpdatesByHq`
(lines 123–144) over one category, threading the overseas list and the
seen-key set. -/
def splitItemsGo (companyHq : List (String × String)) (cat : String) :
    List CategoryUpdate → List OverseasUpdate → List String →
      (List CategoryUpdate × List OverseasUpdate × List String)
  | [], ov, seen => ([], ov, seen)
  | u :: us, ov, seen =>
    match getCountry companyHq u.company with
    | none =>
      let r := splitItemsGo companyHq cat us ov seen
      (u :: r.1, r.2.1, r.2.2)
    | some c =>
      if isKoreaCountryLabel c then
        let r := splitItemsGo companyHq cat us ov seen
        (u :: r.1, r.2.1, r.2.2)
      else if !(truthy u.url) then splitItemsGo companyHq cat us ov seen
      else
        let key := augKey u.company u.title
        if seen.contains key then splitItemsGo companyHq cat us ov seen
        else
          splitItemsGo companyHq cat us
            (ov ++ [⟨u.company, some c, some cat, u.tag, u.title, u.url, u.insight⟩])
            (seen ++ [key])

/-- The loop over `Object.keys(copy.category_updates)` (line 122). -/
def splitCatsGo (companyHq : List (String × String)) :
    List (String × List CategoryUpdate) → List OverseasUpdate → List String →
      (List (String × List CategoryUpdate) × List OverseasUpdate × List String)
  | [], ov, seen => ([], ov, seen)
  | (cat, items) :: rest, ov, seen =>
    let r := splitItemsGo companyHq cat items ov seen
    let r2 := splitCatsGo companyHq rest r.2.1 r.2.2
    ((cat, r.1) :: r2.1, r2.2.1, r2.2.2)

/-- The country back-fill map of lines 148–154: fill a falsy country
from the HQ table when it resolves to a non-domestic label. -/
def backfillCountry (companyHq : List (String × String))
    (u : OverseasUpdate) : OverseasUpdate :=
  if truthy u.country then u
  else
    match getCountry companyHq u.company with
    | none => u
    | some c => if isKoreaCountryLabel c then u else { u with country := some c }

/-- `splitOverseasFromCategoryUpdatesByHq` (`augment.ts` lines 101–158). -/
def splitOverseasFromCategoryUpdatesByHq (report : WeeklyReport)
    (companyHq : List (String × String)) : WeeklyReport :=
  let ov0 := report.overseas_competitor_updates
  let seen0 := ov0.map (fun u => augKey u.company u.title)
  let r := splitCatsGo companyHq report.category_updates ov0 seen0
  weeklyReportSchemaParse
    { report with
      category_updates := r.1,
      overseas_competitor_updates :=
        (r.2.1.map (backfillCountry companyHq)).take 15 }

/-- `ensureOverseasCompetitorSection` (`augment.ts` lines 40–87). -/
def ensureOverseasCompetitorSection (report : WeeklyReport) : WeeklyReport :=
  let minItems := 10
  let maxItems := 15
  if report.overseas_competitor_updates.length ≥ minItems then report
  else
    let existing := report.overseas_competitor_updates
    let st0 : List OverseasUpdate × List String :=
      (existing, existing.map (fun u => augKey u.company u.title))
    let st1 := report.top_highlights.foldl (fun st h =>
      if !(truthy h.link) then st
      else if !(isLikelyNonKoreanCompany h.company none) then st
      else
        let key := augKey h.company h.title
        if st.2.contains key then st
        else (st.1 ++ [⟨h.company, none, some h.category, "Highlight", h.title,
                h.link, some h.insight⟩],
              st.2 ++ [key])) st0
    let st2 := report.hiring_signals.foldl (fun st h =>
      if !(truthy h.url) then st
      else if !(isLikelyNonKoreanCompany h.company none) then st
      else
        let title := "채용: " ++ h.position
        let key := augKey h.company title
        if st.2.contains key then st
        else (st.1 ++ [⟨h.company, none, none, "Hiring", title, h.url,
                some h.strategic_inference⟩],
              st.2 ++ [key])) st1
    weeklyReportSchemaParse
      { report with overseas_competitor_updates := st2.1.take maxItems }

/-! ## Evidence items and research configuration -/

/-- `SourceItem` (`src/research/sourcesSchema.ts`). -/
structure SourceItem where
  company : String
  category : String
  title : String
  url : String
  published_date : Option String
  note : Option String
  quote : Option String
deriving DecidableEq, Repr

inductive SourceProvider
  | gemini_grounded
  | searchapi_google_news
deriving DecidableEq, Repr

structure SearchApiConfig where
  max_updates_per_company : Nat
deriving DecidableEq, Repr

structure CategoryConfig where
  id : String
  name : String
deriving DecidableEq, Repr

/-- The fraction of `ResearchConfig` (`src/research/config.ts`) that the
embedded functions consume. -/
structure ResearchConfig where
  source_provider : SourceProvider
  max_companies_per_category : Nat
  categories : List CategoryConfig
  searchapi : Option SearchApiConfig
deriving DecidableEq, Repr

/-! ## Deterministic fallback filler (`src/research/fallbackFill.ts`) -/

/-- `inferTag` (lines 37–56): first keyword rule that matches the
lower-cased title wins; the regex alternations are literal keyword
lists. -/
def inferTagRules : List (List String × String) :=
  [ (["m&a", "인수", "합병", "acquisition", "merge"], "M&A"),
    (["투자", "seed", "series", "fund", "financing", "raise"], "투자"),
    (["ipo", "상장", "spac"], "IPO"),
    (["파트너", "제휴", "협력", "partnership", "collaboration"], "제휴"),
    (["출시", "런칭", "release", "launch"], "출시"),
    (["업데이트", "update", "changelog"], "업데이트"),
    (["채용", "recruit", "hiring", "job"], "채용"),
    (["리포트", "보고서", "report", "outlook"], "리포트"),
    (["가격", "요금", "pricing", "price"], "가격"),
    (["특허", "patent"], "특허"),
    (["글로벌", "global", "overseas", "international"], "글로벌") ]

def inferTag (title : String) : String :=
  let t := strToLower title
  ((inferTagRules.find? (fun r => r.1.any (fun kw => strContains t kw))).map
    (fun r => r.2)).getD "Update"

/-- `toOptionalNonEmptyString` (lines 58–62) on a string-or-absent
value. -/
def toOptionalNonEmptyString (v : Option String) : Option String :=
  match v with
  | none => none
  | some s => if jsTrim s == "" then none else some (jsTrim s)

/-- `countUpdates` (lines 64–66). -/
def countUpdates (report : WeeklyReport) : Nat :=
  report.category_updates.foldl (fun sum e => sum + e.2.length) 0

/-- A category update built from an evidence item (lines 158–164 and
180–186). -/
def mkUpdateFromSource (s : SourceItem) : CategoryUpdate :=
  ⟨s.company, inferTag s.title, s.title, some s.url,
    toOptionalNonEmptyString s.note⟩

/-- One step of `dedupeFirstByCompanyKey` (lines 93–100). -/
def dedupeCompanyStep (acc : List CategoryUpdate × List String)
    (u : CategoryUpdate) : List CategoryUpdate × List String :=
  let k := normalizeCompanyKey u.company
  if acc.2.contains k then acc else (acc.1 ++ [u], acc.2 ++ [k])

/-- Keep only the first update per normalised company key
(lines 93–100). -/
def dedupeFirstByCompanyKey (l : List CategoryUpdate) : List CategoryUpdate :=
  (l.foldl dedupeCompanyStep ([], [])).1

/-- State of the `addUpdate` closure in search-API mode
(lines 112–134). -/
structure AddState where
  final : List CategoryUpdate
  seenItems : List String
  companyCounts : List (String × Nat)
  companyOrder : List String
  companyName : List (String × String)
deriving DecidableEq, Repr

/-- `addUpdate` (lines 119–134). -/
def addUpdate (maxCompanies maxUpdatesPerCompany : Nat) (st : AddState)
    (u : CategoryUpdate) : AddState :=
  let companyKey := normalizeCompanyKey u.company
  let itemKey :=
    if truthy u.url then u.url.getD ""
    else companyKey ++ "|" ++ titleKeyPart u.title
  if st.seenItems.contains itemKey then st
  else
    let currentCompanies := st.companyCounts.length
    if !(st.companyCounts.any (fun e => e.1 = companyKey))
        && decide (currentCompanies ≥ maxCompanies) then st
    else
      let count := (lookupAssoc st.companyCounts companyKey).getD 0
      if count ≥ maxUpdatesPerCompany then st
      else
        let named := (lookupAssoc st.companyName companyKey).getD "" != ""
        { final := st.final ++ [u],
          seenItems := st.seenItems ++ [itemKey],
          companyCounts := setAssoc st.companyCounts companyKey (count + 1),
          companyOrder :=
            if named then st.companyOrder else st.companyOrder ++ [companyKey],
          companyName :=
            if named then st.companyName
            else setAssoc st.companyName companyKey u.company }

/-- The company registration pass over `catSources` (lines 138–144). -/
def registerCompany (st : AddState) (company : String) : AddState :=
  let companyKey := normalizeCompanyKey company
  if (lookupAssoc st.companyName companyKey).getD "" != "" then st
  else
    { st with
      companyName := setAssoc st.companyName companyKey company,
      companyOrder := st.companyOrder ++ [companyKey] }

/-- The search-API branch of the per-category fill (lines 112–166). -/
def processCategorySearchApi (maxCompanies maxUpdatesPerCompany : Nat)
    (dedupedExisting : List CategoryUpdate) (catSources : List SourceItem) :
    List CategoryUpdate :=
  let st1 := dedupedExisting.foldl (addUpdate maxCompanies maxUpdatesPerCompany)
    ⟨[], [], [], [], []⟩
  let st2 := catSources.foldl (fun st s => registerCompany st s.company) st1
  let sourcesByCompany := groupByKey (fun s => normalizeCompanyKey s.company)
    catSources
  let st3 := st2.companyOrder.foldl (fun st companyKey =>
    ((lookupAssoc sourcesByCompany companyKey).getD []).foldl
      (fun st s => addUpdate maxCompanies maxUpdatesPerCompany st
        (mkUpdateFromSource s)) st) st2
  st3.final

/-- The grounded-oracle branch of the per-category fill
(lines 167–189). -/
def geminiStep (maxCompanies : Nat) (acc : List CategoryUpdate × List String)
    (e : String × SourceItem) : List CategoryUpdate × List String :=
  if acc.1.length ≥ maxCompanies then acc
  else if acc.2.contains e.1 then acc
  else (acc.1 ++ [mkUpdateFromSource e.2], acc.2 ++ [e.1])

def processCategoryGemini (maxCompanies : Nat)
    (dedupedExisting : List CategoryUpdate) (catSources : List SourceItem) :
    List CategoryUpdate :=
  let final0 := dedupedExisting.take maxCompanies
  let firstPerCompany :=
    (groupByKey (fun s => normalizeCompanyKey s.company) catSources).filterMap
      (fun e => e.2.head?.map (fun s => (e.1, s)))
  let already0 := final0.map (fun u => normalizeCompanyKey u.company)
  (firstPerCompany.foldl (geminiStep maxCompanies) (final0, already0)).1

/-- The `final` list one iteration of the per-category loop of
`fillReportFromSourcesFallback` (lines 84–193) writes for its
category. -/
def fillCatFinal (config : ResearchConfig)
    (companyHq : List (String × String)) (sources : List SourceItem)
    (rep : WeeklyReport) (cat : CategoryConfig) : List CategoryUpdate :=
  let catId := cat.id
  let existing := (lookupAssoc rep.category_updates catId).getD []
  let isSearchApiMode :=
    config.source_provider = SourceProvider.searchapi_google_news
  let dedupedExisting :=
    if isSearchApiMode then existing else dedupeFirstByCompanyKey existing
  let catSources := (sources.filter (fun s => s.category == catId)).filter
    (fun s => isLikelyKoreanCompany s.company companyHq)
  if catSources.isEmpty then dedupedExisting
  else if isSearchApiMode then
    processCategorySearchApi config.max_companies_per_category
      ((config.searchapi.map SearchApiConfig.max_updates_per_company).getD 3)
      dedupedExisting catSources
  else
    processCategoryGemini config.max_companies_per_category dedupedExisting
      catSources

/-- One iteration of the per-category loop of
`fillReportFromSourcesFallback` (lines 84–193). -/
def fillCatStep (config : ResearchConfig)
    (companyHq : List (String × String)) (sources : List SourceItem)
    (rep : WeeklyReport) (cat : CategoryConfig) : WeeklyReport :=
  { rep with
    category_updates := setAssoc rep.category_updates cat.id
      (fillCatFinal config companyHq sources rep cat) }

/-- The per-category loop of `fillReportFromSourcesFallback`
(lines 84–193). -/
def fillCategoryPhase (config : ResearchConfig)
    (companyHq : List (String × String)) (sources : List SourceItem)
    (copy : WeeklyReport) : WeeklyReport :=
  config.categories.foldl (fillCatStep config companyHq sources) copy

/-- State of the overseas back-fill (lines 215–217). -/
structure OvState where
  out : List OverseasUpdate
  seenCompanies : List String
  seenItems : List String
deriving DecidableEq, Repr

/-- `pushOne` (lines 219–236). -/
def pushOne (companyHq : List (String × String)) (st : OvState)
    (s : SourceItem) : OvState :=
  let companyKey := normalizeCompanyKey s.company
  let itemKey := companyKey ++ "|" ++ titleKeyPart s.title
  if st.seenItems.contains itemKey then st
  else if st.seenCompanies.contains companyKey then st
  else
    { out := st.out ++ [⟨s.company, getCountry companyHq s.company,
        some s.category, inferTag s.title, s.title, some s.url,
        toOptionalNonEmptyString s.note⟩],
      seenCompanies := st.seenCompanies ++ [companyKey],
      seenItems := st.seenItems ++ [itemKey] }

/-- The inner loop of overseas pass 1 (lines 242–250), with its two
`break` conditions. -/
def pass1Lists (companyHq : List (String × String)) (target maxI : Nat) :
    List (List SourceItem) → OvState → Nat → OvState
  | [], st, _ => st
  | list :: rest, st, picked =>
    if st.out.length ≥ maxI then st
    else
      match list.head? with
      | none => pass1Lists companyHq target maxI rest st picked
      | some s =>
        let st2 := pushOne companyHq st s
        let picked2 :=
          if st2.seenCompanies.contains (normalizeCompanyKey s.company) then
            picked + 1
          else picked
        if picked2 ≥ target then st2
        else pass1Lists companyHq target maxI rest st2 picked2

/-- Overseas pass 1 over the configured categories (lines 239–251). -/
def pass1 (companyHq : List (String × String)) (target maxI : Nat)
    (categories : List CategoryConfig)
    (byCategoryCompany : List (String × List (String × List SourceItem)))
    (st : OvState) : OvState :=
  categories.foldl (fun st cat =>
    match lookupAssoc byCategoryCompany cat.id with
    | none => st
    | some companies =>
      pass1Lists companyHq target maxI (companies.map Prod.snd) st 0) st

/-- Overseas pass 2 (lines 254–259). -/
def pass2 (companyHq : List (String × String)) (maxI : Nat) :
    List SourceItem → OvState → OvState
  | [], st => st
  | s :: rest, st =>
    if st.out.length ≥ maxI then st
    else pass2 companyHq maxI rest (pushOne companyHq st s)

/-- The evidence items that count as overseas for the back-fill
(lines 199–202 and 298–302). -/
def overseasSourcesOf (companyHq : List (String × String))
    (sources : List SourceItem) : List SourceItem :=
  sources.filter (fun s =>
    match getCountry companyHq s.company with
    | some c => !(isKoreaCountryLabel c)
    | none => isLikelyNonKoreanCompany s.company none)

/-- The overseas back-fill phase of `fillReportFromSourcesFallback`
(lines 195–262). -/
def fillOverseasPhase (config : ResearchConfig)
    (companyHq : List (String × String)) (sources : List SourceItem)
    (copy : WeeklyReport) : WeeklyReport :=
  if copy.overseas_competitor_updates.length = 0 then
    let maxItems := 15
    let len := max 1 config.categories.length
    let perCategoryTarget := max 1 (min 3 ((maxItems + len - 1) / len))
    let overseasSources := overseasSourcesOf companyHq sources
    let byCategoryCompany :=
      (groupByKey (fun s => s.category) overseasSources).map
        (fun e => (e.1, groupByKey (fun s => normalizeCompanyKey s.company) e.2))
    let st1 := pass1 companyHq perCategoryTarget maxItems config.categories
      byCategoryCompany ⟨[], [], []⟩
    let st2 :=
      if st1.out.length < maxItems then pass2 companyHq maxItems overseasSources st1
      else st1
    { copy with overseas_competitor_updates := st2.out.take maxItems }
  else copy

/-- The loop body filling `action_items` (lines 270–274). -/
def actionGo : List (String × CategoryUpdate) → List String → List String
  | [], acts => acts
  | (catId, u) :: rest, acts =>
    let action := "기획팀: " ++ catId ++ " - " ++ u.company ++ " (" ++ u.tag
      ++ ") 업데이트 상세 검토 및 벤치마킹 포인트 정리"
    let acts2 := if acts.contains action then acts else acts ++ [action]
    if acts2.length ≥ 6 then acts2 else actionGo rest acts2

/-- The action-item phase of `fillReportFromSourcesFallback`
(lines 264–277). -/
def actionPhase (copy : WeeklyReport) : WeeklyReport :=
  if copy.action_items.length < 3 ∧ countUpdates copy > 0 then
    let topUpdates := (copy.category_updates.flatMap (fun e =>
      e.2.map (fun u => (e.1, u)))).take 6
    { copy with
      action_items :=
        (actionGo topUpdates (dedupeKeepFirst copy.action_items)).take 6 }
  else copy

/-- `fillReportFromSourcesFallback` (`fallbackFill.ts` lines 68–280). -/
def fillReportFromSourcesFallback (report : WeeklyReport)
    (sources : List SourceItem) (config : ResearchConfig)
    (companyHq : List (String × String)) : WeeklyReport :=
  weeklyReportSchemaParse
    (actionPhase
      (fillOverseasPhase config companyHq sources
        (fillCategoryPhase config companyHq sources report)))

/-- State of `fillOverseasFromSourcesFallback`. -/
structure FillOvState where
  out : List OverseasUpdate
  seen : List String
  seenCompanies : List String
deriving DecidableEq, Repr

/-- The distinct-companies-first loop of `fillOverseasFromSourcesFallback`
(lines 313–332). -/
def fillOvGo (companyHq : List (String × String)) (minItems maxItems : Nat) :
    List (String × List SourceItem) → FillOvState → FillOvState
  | [], st => st
  | (companyKey, list) :: rest, st =>
    if st.out.length ≥ maxItems then st
    else if st.out.length ≥ minItems && st.seenCompanies.contains companyKey then
      fillOvGo companyHq minItems maxItems rest st
    else
      match list.head? with
      | none => fillOvGo companyHq minItems maxItems rest st
      | some s =>
        let key := companyKey ++ "|" ++ titleKeyPart s.title
        if st.seen.contains key then fillOvGo companyHq minItems maxItems rest st
        else
          fillOvGo companyHq minItems maxItems rest
            { out := st.out ++ [⟨s.company, getCountry companyHq s.company,
                some s.category, inferTag s.title, s.title, some s.url,
                toOptionalNonEmptyString s.note⟩],
              seen := st.seen ++ [key],
              seenCompanies := st.seenCompanies ++ [companyKey] }

/-- The if-still-short loop of `fillOverseasFromSourcesFallback`
(lines 334–353); it does not extend `seenCompanies`. -/
def fillOvGo2 (companyHq : List (String × String)) (maxItems : Nat) :
    List SourceItem → FillOvState → FillOvState
  | [], st => st
  | s :: rest, st =>
    if st.out.length ≥ maxItems then st
    else
      let companyKey := normalizeCompanyKey s.company
      let key := companyKey ++ "|" ++ titleKeyPart s.title
      if st.seen.contains key then fillOvGo2 companyHq maxItems rest st
      else
        fillOvGo2 companyHq maxItems rest
          { st with
            out := st.out ++ [⟨s.company, getCountry companyHq s.company,
              some s.category, inferTag s.title, s.title, some s.url,
              toOptionalNonEmptyString s.note⟩],
            seen := st.seen ++ [key] }

/-- `fillOverseasFromSourcesFallback` (`fallbackFill.ts` lines 282–357);
`minItemsArg`/`maxItemsArg` model the optional arguments with their
`?? 10` / `?? 15` defaults. -/
def fillOverseasFromSourcesFallback (report : WeeklyReport)
    (sources : List SourceItem) (companyHq : List (String × String))
    (minItemsArg maxItemsArg : Option Nat) : WeeklyReport :=
  let minItems := minItemsArg.getD 10
  let maxItems := maxItemsArg.getD 15
  let out0 := report.overseas_competitor_updates.take maxItems
  let st0 : FillOvState :=
    ⟨out0, out0.map (fun u => fbKey u.company u.title),
      out0.map (fun u => normalizeCompanyKey u.company)⟩
  let overseasSources := overseasSourcesOf companyHq sources
  let byCompany := groupByKey (fun s => normalizeCompanyKey s.company)
    overseasSources
  let st1 := fillOvGo companyHq minItems maxItems byCompany st0
  let st2 :=
    if st1.out.length < minItems then fillOvGo2 companyHq maxItems overseasSources st1
    else st1
  weeklyReportSchemaParse
    { report with overseas_competitor_updates := st2.out.take maxItems }

/-! ## Live URL prober (`src/research/urlCheck.ts`, current version)

The file also contains a superseded earlier copy whose ok-set is only
`401/403/429`; the embedded definitions follow the current prober (the
one with `finalUrl` and soft-404 support, which `postprocess.ts` drives
with `soft404: true`).  The network is a deterministic oracle
`HttpMethod → Except String HttpResponse`: a timeout or transport error
is the `Except.error` case carrying the error message. -/

inductive HttpMethod
  | head
  | get
deriving DecidableEq, Repr

structure HttpResponse where
  status : Nat
  url : String
  contentType : String
  body : String
deriving DecidableEq, Repr

/-- `isProbablyOkStatus` (`urlCheck.ts` lines 62–67, current copy). -/
def isProbablyOkStatus (status : Nat) : Bool :=
  if 200 ≤ status ∧ status ≤ 399 then true
  else if status = 401 ∨ status = 403 ∨ status = 406 ∨ status = 418
      ∨ status = 429 ∨ status = 451 then true
  else false

/-- `UrlCheckResult` as one record: `ok` with `status`, or not-ok with a
`reason`; `finalUrl` carries a differing redirect target. -/
structure UrlCheckResult where
  url : String
  ok : Bool
  status : Option Nat
  reason : Option String
  finalUrl : Option String
deriving DecidableEq, Repr

/-- `checkOne` (lines 140–154): HEAD, retry 4xx/5xx/405 with GET, and a
catch-all turning a fetch exception into a not-ok result whose reason is
the error message. -/
def checkOne (fetch : HttpMethod → Except String HttpResponse)
    (url : String) : UrlCheckResult :=
  match fetch HttpMethod.head with
  | Except.error e => ⟨url, false, none, some e, none⟩
  | Except.ok res =>
    match (if (400 ≤ res.status ∧ res.status ≤ 599) ∨ res.status = 405 then
        fetch HttpMethod.get
      else Except.ok res) with
    | Except.error e => ⟨url, false, none, some e, none⟩
    | Except.ok res2 =>
      let finalUrl :=
        if strStartsWith res2.url "http" && res2.url != url then some res2.url
        else none
      if isProbablyOkStatus res2.status then ⟨url, true, some res2.status, none, finalUrl⟩
      else ⟨url, false, some res2.status, some ("HTTP_" ++ toString res2.status), finalUrl⟩

/-- `looksLikeSoft404` (lines 105–119).  The regex patterns are
approximated by their literal keyword cores (word boundaries and
flexible whitespace are not modelled; no claim depends on the exact
pattern set). -/
def soft404Keywords : List String :=
  ["404", "not found", "page not found", "the page you requested",
   "the page you are looking for", "페이지를 찾을 수 없", "요청하신 페이지",
   "존재하지 않는 페이지", "찾을 수 없"]

def looksLikeSoft404 (bodyStart : String) : Bool :=
  let s := strToLower bodyStart
  if jsTrim s == "" then false
  else soft404Keywords.any (fun kw => strContains s kw)

/-- The per-URL worker body of `checkUrls` (lines 167–186): `checkOne`
plus the optional soft-404 refinement, whose own fetch failure keeps the
original result. -/
def checkOneSoft (fetch : HttpMethod → Except String HttpResponse)
    (url : String) (soft404 : Bool) : UrlCheckResult :=
  let r := checkOne fetch url
  let in2xx := match r.status with
    | some s => decide (200 ≤ s) && decide (s ≤ 299)
    | none => false
  if soft404 && r.ok && in2xx then
    match fetch HttpMethod.get with
    | Except.error _ => r
    | Except.ok res =>
      let ct := strToLower res.contentType
      if 200 ≤ res.status ∧ res.status ≤ 299 ∧ strContains ct "text/html" then
        let bodyStart := String.mk (res.body.data.take 8192)
        if looksLikeSoft404 bodyStart then
          ⟨url, false, some res.status, some "SOFT_404",
            if res.url != "" && res.url != url then some res.url else none⟩
        else if strStartsWith res.url "http" && res.url != url then
          { r with finalUrl := some res.url }
        else r
      else r
  else r

/-- `checkUrls` (lines 156–192).  The worker pool claims indices from a
shared counter and keys results by URL, so each distinct http(s) URL is
checked exactly once and concurrency affects only completion order; the
result map equals this sequential map.  `timeoutMs`/`concurrency` are
absorbed into the fetch oracle (a timeout is an `Except.error`). -/
def checkUrls (fetch : String → HttpMethod → Except String HttpResponse)
    (urls : List String) (soft404 : Bool) : List (String × UrlCheckResult) :=
  let uniq := (dedupeKeepFirst urls).filter (fun u =>
    strStartsWith (strToLower u) "http://"
      || strStartsWith (strToLower u) "https://")
  uniq.map (fun u => (u, checkOneSoft (fetch u) u soft404))

/-! ## Source-list ingestion (`src/research/sourcesSchema.ts`) -/

/-- `coerceUrl` (lines 4–19): trim, strip wrapping brackets, prefix
`www.`-style strings with `https://`, and require `new URL` to accept
the result. -/
def coerceUrl (value : String) : Option String :=
  let s0 := jsTrim value
  if s0 == "" then none
  else
    let s1 := s0.data.dropWhile (fun c => c = '<' || c = '[' || c = '(' || c.isWhitespace)
    let s2 := String.mk
      ((s1.reverse.dropWhile (fun c => c = '>' || c = ']' || c = ')' || c.isWhitespace)).reverse)
    let s3 :=
      if !(strStartsWith (strToLower s2) "http://")
          && !(strStartsWith (strToLower s2) "https://") then
        (if strStartsWith s2 "www." then "https://" ++ s2 else s2)
      else s2
    if (parseUrlChars s3.data).isSome then some s3 else none

/-- A candidate element of `sources` whose fields are strings (non-string
fields fail the zod field validators outright, so the string-field case
is the one that decides acceptance). -/
structure RawSourceItem where
  company : String
  category : String
  title : String
  url : String
  published_date : Option String
  note : Option String
  quote : Option String
deriving DecidableEq, Repr

def categoryIds : List String := ["CAT-A", "CAT-B", "CAT-C", "CAT-D"]

/-- `SourceItemSchema.safeParse` (lines 21–33): non-empty company/title,
category in the enum, the url preprocessed by `coerceUrl` (falling back
to the raw value) and then required to parse as a URL (`z.string().url()`
calls `new URL`), and the quote preprocessed to `undefined` when its
trimmed length is under 20 and rejected above 400. -/
def parseSourceItem (r : RawSourceItem) : Option SourceItem :=
  if r.company.length = 0 then none
  else if !(categoryIds.contains r.category) then none
  else if r.title.length = 0 then none
  else if !(parseUrlChars ((coerceUrl r.url).getD r.url).data).isSome then none
  else
    match r.quote with
    | none =>
      some ⟨r.company, r.category, r.title, (coerceUrl r.url).getD r.url,
        r.published_date, r.note, none⟩
    | some q =>
      if (jsTrim q).length ≥ 20 then
        if (jsTrim q).length ≤ 400 then
          some ⟨r.company, r.category, r.title, (coerceUrl r.url).getD r.url,
            r.published_date, r.note, some (jsTrim q)⟩
        else none
      else
        some ⟨r.company, r.category, r.title, (coerceUrl r.url).getD r.url,
          r.published_date, r.note, none⟩

/-- `SourceListSchema` (lines 35–45): keep exactly the candidates that
`SourceItemSchema` accepts. -/
def sourceListSchemaParse (items : List RawSourceItem) : List SourceItem :=
  items.filterMap parseSourceItem

/-! ## Structure-only repair allow-list (`src/research/gemini.ts`) -/

/-- The map step of `enforceAllowedUrlsOnReport`: clear a truthy URL that
is not allowed (up to `normalizeUrl`). -/
def clearDisallowed (allowedN : List String) (o : Option String) :
    Option String :=
  if truthy o && !(allowedN.contains (normalizeUrl (o.getD ""))) then none
  else o

/-- The filter step of `enforceAllowedUrlsOnReport`:
`!url || allowed.has(normalizeUrl(url))` (a falsy url always passes). -/
def passesAllowed (allowedN : List String) (o : Option String) : Bool :=
  if truthy o then allowedN.contains (normalizeUrl (o.getD "")) else true

/-- `enforceAllowedUrlsOnReport` (`gemini.ts` lines 222–257). -/
def enforceAllowedUrlsOnReport (report : WeeklyReport)
    (allowedUrls : List String) : WeeklyReport :=
  let allowedN := allowedUrls.map normalizeUrl
  weeklyReportSchemaParse
    { report with
      top_highlights :=
        (report.top_highlights.map (fun h =>
          { h with link := clearDisallowed allowedN h.link })).filter
          (fun h => passesAllowed allowedN h.link),
      category_updates := report.category_updates.map (fun e =>
        (e.1, (e.2.map (fun u => { u with url := clearDisallowed allowedN u.url })).filter
          (fun u => passesAllowed allowedN u.url))),
      overseas_competitor_updates :=
        (report.overseas_competitor_updates.map (fun u =>
          { u with url := clearDisallowed allowedN u.url })).filter
          (fun u => passesAllowed allowedN u.url),
      hiring_signals :=
        (report.hiring_signals.map (fun h =>
          { h with url := clearDisallowed allowedN h.url })).filter
          (fun h => passesAllowed allowedN h.url) }

/-- A URL (in the model) that parses and whose scheme is http(s). -/
def isHttpAbsoluteUrl (s : String) : Bool :=
  match parseUrlChars s.data with
  | none => false
  | some u =>
    lowerChars u.scheme = "http".data || lowerChars u.scheme = "https".data

/-! ## Concrete fixtures used by witnesses and counterexamples -/

def ftpRaw : RawSourceItem :=
  ⟨"A", "CAT-A", "t", "ftp://example.com/x", none, none, none⟩

def rawGood : RawSourceItem :=
  ⟨"A", "CAT-A", "t", "https://example.com/x", none, none, none⟩

def itemGood : SourceItem :=
  ⟨"A", "CAT-A", "t", "https://example.com/x", none, none, none⟩

def hlC4 : Highlight := ⟨"Acme", "CAT-A", "T", "I", 3, some "https://ok.example/a"⟩

def repC4 : WeeklyReport :=
  ⟨"2026-01-16", 3, [], [hlC4], [("CAT-A", [])], [], [], []⟩

def histC3 : SeenHistory := ⟨[("2026-W03", ⟨["https://a.example/x"], none⟩)]⟩

def hlC3 : Highlight :=
  ⟨"Acme", "CAT-A", "T", "I", 3, some "https://a.example/x?utm_source=x"⟩

def hsC3 : HiringSignal := ⟨"Acme", "Engineer", "Inf", none⟩

def repC3 : WeeklyReport :=
  ⟨"2026-01-16", 3, [], [hlC3], [("CAT-A", [])], [], [hsC3], []⟩

def histC7 : SeenHistory :=
  ⟨[("2026-W01", ⟨["https://a.example/1"], none⟩),
    ("2026-W02", ⟨["https://a.example/2"], none⟩)]⟩

/-- The normalised company keys of a category's update list. -/
def companyKeys (l : List CategoryUpdate) : List String :=
  l.map (fun u => normalizeCompanyKey u.company)

/-- Number of distinct companies (by normalised key) in a category's
update list — the quantity the spec claims the fallback filler never
decreases. -/
def distinctCompanyCount (l : List CategoryUpdate) : Nat :=
  (companyKeys l).toFinset.card

def cuAA : CategoryUpdate := ⟨"AA", "Update", "t1", some "https://aa.example/1", none⟩

def cuBB : CategoryUpdate := ⟨"BB", "Update", "t2", some "https://bb.example/2", none⟩

def repC2 : WeeklyReport :=
  ⟨"2026-01-16", 3, [], [], [("CAT-A", [cuAA, cuBB])], [], [], []⟩

def cfgC2 : ResearchConfig :=
  ⟨SourceProvider.gemini_grounded, 1, [⟨"CAT-A", "Category A"⟩], none⟩

def srcC2 : SourceItem :=
  ⟨"CC", "CAT-A", "t3", "https://cc.example/3", none, none, none⟩

def hqC2 : List (String × String) := [("CC", "Korea")]

/-- A configuration whose cap is not below the category's distinct
companies. -/
def cfgC2w : ResearchConfig :=
  ⟨SourceProvider.gemini_grounded, 2, [⟨"CAT-A", "Category A"⟩], none⟩

def cuC1 : CategoryUpdate := ⟨"Acme", "Update", "T1", none, some "I1"⟩

def repC1 : WeeklyReport :=
  ⟨"2026-01-16", 3, [], [], [("CAT-A", [cuC1])], [], [], []⟩

def hqC1 : List (String × String) := [("Acme", "USA")]

/-- The `augment.ts` dedup key of an overseas entry. -/
def ovKey (o : OverseasUpdate) : String := augKey o.company o.title

def cuC1w : CategoryUpdate :=
  ⟨"Acme", "Update", "T1", some "https://acme.example/x", some "I1"⟩

def repC1w : WeeklyReport :=
  ⟨"2026-01-16", 3, [], [], [("CAT-A", [cuC1w])], [], [], []⟩

/-! ## Theorems -/

theorem splitAll_ne_nil (c : Char) (l : List Char) : splitAll c l ≠ [] := by
  induction l with
  | nil => simp [splitAll]
  | cons x xs ih =>
    simp only [splitAll]
    split
    · simp
    · cases h : splitAll c xs with
      | nil => simp
      | cons a rest => simp

theorem splitFirst_cons_ne (c x : Char) (xs : List Char) (hx : ¬ x = c) :
    splitFirst c (x :: xs) = (x :: (splitFirst c xs).1, (splitFirst c xs).2) := by
  simp [splitFirst, hx]

theorem splitFirst_eq_some {c : Char} {l a b : List Char}
    (h : splitFirst c l = (a, some b)) : l = a ++ c :: b ∧ c ∉ a := by
  induction l generalizing a b with
  | nil => simp [splitFirst] at h
  | cons x xs ih =>
    by_cases hx : x = c
    · subst hx
      simp [splitFirst] at h
      obtain ⟨ha, hb⟩ := h
      subst ha; subst hb; simp
    · rw [splitFirst_cons_ne c x xs hx] at h
      rcases hsp : splitFirst c xs with ⟨a', ob⟩
      rw [hsp] at h
      cases ob with
      | none => simp at h
      | some b2 =>
        have ha : x :: a' = a := congrArg Prod.fst h
        have hb : b2 = b := by
          have := congrArg Prod.snd h
          simpa using this
        subst hb
        obtain ⟨h1, h2⟩ := ih hsp
        subst ha
        refine ⟨by simp [h1], ?_⟩
        simp [h2]
        exact fun hh => hx hh.symm

theorem splitFirst_eq_none {c : Char} {l a : List Char}
    (h : splitFirst c l = (a, none)) : a = l ∧ c ∉ l := by
  induction l generalizing a with
  | nil =>
    simp [splitFirst] at h
    exact ⟨h, by simp⟩
  | cons x xs ih =>
    by_cases hx : x = c
    · subst hx; simp [splitFirst] at h
    · rw [splitFirst_cons_ne c x xs hx] at h
      rcases hsp : splitFirst c xs with ⟨a', ob⟩
      rw [hsp] at h
      cases ob with
      | some b2 => simp at h
      | none =>
        have ha : x :: a' = a := congrArg Prod.fst h
        obtain ⟨h1, h2⟩ := ih hsp
        subst ha
        subst h1
        refine ⟨rfl, ?_⟩
        simp [h2]
        exact fun hh => hx hh.symm

theorem splitFirst_of_not_mem {c : Char} {l : List Char} (h : c ∉ l) :
    splitFirst c l = (l, none) := by
  induction l with
  | nil => simp [splitFirst]
  | cons x xs ih =>
    simp at h
    simp [splitFirst, Ne.symm h.1, ih h.2]

theorem splitFirst_append {c : Char} {a b : List Char} (h : c ∉ a) :
    splitFirst c (a ++ c :: b) = (a, some b) := by
  induction a with
  | nil => simp [splitFirst]
  | cons x xs ih =>
    simp at h
    simp [splitFirst, Ne.symm h.1, ih h.2]

theorem splitAll_of_not_mem {c : Char} {l : List Char} (h : c ∉ l) :
    splitAll c l = [l] := by
  induction l with
  | nil => simp [splitAll]
  | cons x xs ih =>
    simp at h
    simp [splitAll, Ne.symm h.1, ih h.2]

theorem splitAll_append {c : Char} {a b : List Char} (h : c ∉ a) :
    splitAll c (a ++ c :: b) = a :: splitAll c b := by
  induction a with
  | nil => simp [splitAll]
  | cons x xs ih =>
    simp at h
    have hrec := ih h.2
    have hne : ¬ (x = c) := Ne.symm h.1
    simp only [List.cons_append, splitAll, hne, if_false, List.append_eq]
    rw [hrec]

/-! ### Query-parameter lemmas -/

theorem schemeChar_ne_colon {c : Char} (h : schemeChar c = true) : c ≠ ':' := by
  intro he
  subst he
  simp [schemeChar] at h

theorem schemeOk_colon_not_mem {s : List Char} (h : schemeOk s = true) : ':' ∉ s := by
  match s with
  | [] => simp [schemeOk] at h
  | c :: rest =>
    simp [schemeOk] at h
    intro hm
    rcases List.mem_cons.mp hm with h1 | h2
    · have : c ≠ ':' := by
        intro he; subst he; exact absurd h.1 (by decide)
      exact this h1.symm
    · exact schemeChar_ne_colon (h.2 _ h2) rfl

theorem splitAll_mem_not {c : Char} {l seg : List Char}
    (h : seg ∈ splitAll c l) : c ∉ seg := by
  induction l generalizing seg with
  | nil =>
    simp [splitAll] at h
    subst h; simp
  | cons x xs ih =>
    by_cases hx : x = c
    · subst hx
      simp [splitAll] at h
      rcases h with h | h
      · subst h; simp
      · exact ih h
    · simp only [splitAll, hx, if_false] at h
      cases hs : splitAll c xs with
      | nil => exact absurd hs (splitAll_ne_nil c xs)
      | cons a rest =>
        rw [hs] at h
        rcases List.mem_cons.mp h with h1 | h2
        · subst h1
          intro hm
          rcases List.mem_cons.mp hm with h3 | h4
          · exact hx h3.symm
          · exact ih (hs ▸ List.mem_cons_self a rest) h4
        · exact ih (hs ▸ List.mem_cons_of_mem a h2)

theorem splitAll_mem_subset {c : Char} {l seg : List Char}
    (h : seg ∈ splitAll c l) : ∀ x ∈ seg, x ∈ l := by
  induction l generalizing seg with
  | nil =>
    simp [splitAll] at h
    subst h; simp
  | cons x xs ih =>
    by_cases hx : x = c
    · subst hx
      simp [splitAll] at h
      rcases h with h | h
      · subst h; simp
      · exact fun y hy => List.mem_cons_of_mem _ (ih h y hy)
    · simp only [splitAll, hx, if_false] at h
      cases hs : splitAll c xs with
      | nil => exact absurd hs (splitAll_ne_nil c xs)
      | cons a rest =>
        rw [hs] at h
        rcases List.mem_cons.mp h with h1 | h2
        · subst h1
          intro y hy
          rcases List.mem_cons.mp hy with h3 | h4
          · subst h3; simp
          · exact List.mem_cons_of_mem _
              (ih (hs ▸ List.mem_cons_self a rest) y h4)
        · exact fun y hy => List.mem_cons_of_mem _
            (ih (hs ▸ List.mem_cons_of_mem a h2) y hy)

theorem parseSeg_wf {seg : List Char} (c : Char) (hc : c ∉ seg) :
    c ∉ (parseSeg seg).1 ∧ c ∉ (parseSeg seg).2 ∧
    ('=' ∉ seg → '=' ∉ (parseSeg seg).1) ∧
    (∀ x, x ∈ (parseSeg seg).1 ∨ x ∈ (parseSeg seg).2 → x ∈ seg) := by
  unfold parseSeg
  rcases hsp : splitFirst '=' seg with ⟨n, ov⟩
  cases ov with
  | none =>
    obtain ⟨h1, _⟩ := splitFirst_eq_none hsp
    subst h1
    refine ⟨hc, by simp, fun h => h, ?_⟩
    intro x hx
    rcases hx with hx | hx
    · exact hx
    · simp at hx
  | some v =>
    obtain ⟨h1, h2⟩ := splitFirst_eq_some hsp
    subst h1
    refine ⟨fun hm => hc (List.mem_append_left _ hm), ?_, fun _ => h2, ?_⟩
    · intro hm
      exact hc (List.mem_append_right _ (List.mem_cons_of_mem _ hm))
    · intro x hx
      rcases hx with hx | hx
      · exact List.mem_append_left _ hx
      · exact List.mem_append_right _ (List.mem_cons_of_mem _ hx)

theorem parseParams_wf {q : List Char} :
    ∀ p ∈ parseParams q, '&' ∉ p.1 ∧ '=' ∉ p.1 ∧ '&' ∉ p.2 := by
  intro p hp
  unfold parseParams at hp
  obtain ⟨seg, hseg, hps⟩ := List.mem_map.mp hp
  have hsegAll : seg ∈ splitAll '&' q := (List.mem_filter.mp hseg).1
  have hamp : '&' ∉ seg := splitAll_mem_not hsegAll
  obtain ⟨w1, w2, w3, _⟩ := parseSeg_wf '&' hamp
  have heqn : '=' ∉ (parseSeg seg).1 := by
    unfold parseSeg
    rcases hsp : splitFirst '=' seg with ⟨n, ov⟩
    cases ov with
    | none =>
      obtain ⟨h1, h2⟩ := splitFirst_eq_none hsp
      subst h1; simpa using h2
    | some v =>
      obtain ⟨_, h2⟩ := splitFirst_eq_some hsp
      simpa using h2
  rw [← hps]
  exact ⟨w1, heqn, w2⟩

theorem parseParams_mem_subset {q : List Char} :
    ∀ p ∈ parseParams q, (∀ x ∈ p.1, x ∈ q) ∧ (∀ x ∈ p.2, x ∈ q) := by
  intro p hp
  unfold parseParams at hp
  obtain ⟨seg, hseg, hps⟩ := List.mem_map.mp hp
  have hsegAll : seg ∈ splitAll '&' q := (List.mem_filter.mp hseg).1
  have hsub := splitAll_mem_subset hsegAll
  obtain ⟨_, _, _, w4⟩ := parseSeg_wf '&' (splitAll_mem_not hsegAll)
  rw [← hps]
  exact ⟨fun x hx => hsub x (w4 x (Or.inl hx)),
         fun x hx => hsub x (w4 x (Or.inr hx))⟩

theorem serializeParams_mem {ps : List (List Char × List Char)} {x : Char}
    (h : x ∈ serializeParams ps) :
    x = '&' ∨ x = '=' ∨ ∃ p ∈ ps, (x ∈ p.1 ∨ x ∈ p.2) := by
  induction ps with
  | nil => simp [serializeParams] at h
  | cons p ps ih =>
    cases ps with
    | nil =>
      simp only [serializeParams, serializePair] at h
      rcases List.mem_append.mp h with h1 | h2
      · exact Or.inr (Or.inr ⟨p, by simp, Or.inl h1⟩)
      · rcases List.mem_cons.mp h2 with h3 | h4
        · exact Or.inr (Or.inl h3)
        · exact Or.inr (Or.inr ⟨p, by simp, Or.inr h4⟩)
    | cons q qs =>
      simp only [serializeParams, serializePair] at h
      rcases List.mem_append.mp h with h1 | h2
      · rcases List.mem_append.mp h1 with h3 | h4
        · exact Or.inr (Or.inr ⟨p, by simp, Or.inl h3⟩)
        · rcases List.mem_cons.mp h4 with h5 | h6
          · exact Or.inr (Or.inl h5)
          · exact Or.inr (Or.inr ⟨p, by simp, Or.inr h6⟩)
      · rcases List.mem_cons.mp h2 with h3 | h4
        · exact Or.inl h3
        · rcases ih (by simpa [serializeParams] using h4) with h5 | h5 | ⟨r, hr, h6⟩
          · exact Or.inl h5
          · exact Or.inr (Or.inl h5)
          · exact Or.inr (Or.inr ⟨r, List.mem_cons_of_mem _ hr, h6⟩)

theorem parseParams_serializeParams {ps : List (List Char × List Char)}
    (hwf : ∀ p ∈ ps, '&' ∉ p.1 ∧ '=' ∉ p.1 ∧ '&' ∉ p.2) :
    parseParams (serializeParams ps) = ps := by
  induction ps with
  | nil => rfl
  | cons p ps ih =>
    obtain ⟨h1, h2, h3⟩ := hwf p (by simp)
    have hpairAmp : '&' ∉ serializePair p := by
      simp only [serializePair]
      intro hm
      rcases List.mem_append.mp hm with hm | hm
      · exact h1 hm
      · rcases List.mem_cons.mp hm with hm | hm
        · exact absurd hm (by decide)
        · exact h3 hm
    have hpairNe : serializePair p ≠ [] := by
      simp [serializePair]
    have hseg : parseSeg (serializePair p) = p := by
      unfold parseSeg serializePair
      rw [splitFirst_append h2]
    cases ps with
    | nil =>
      simp only [serializeParams]
      unfold parseParams
      rw [splitAll_of_not_mem hpairAmp]
      simp [hpairNe, hseg]
    | cons q qs =>
      have hrest := ih (fun r hr => hwf r (List.mem_cons_of_mem _ hr))
      simp only [serializeParams]
      unfold parseParams
      rw [splitAll_append hpairAmp]
      have hcond : (serializePair p).isEmpty = false := by
        simp [List.isEmpty_iff, hpairNe]
      simp only [List.filter_cons, hcond]
      simp only [decide_not, hcond, Bool.not_false, if_true, List.map_cons,
        List.cons.injEq]
      have hrest' := hrest
      unfold parseParams at hrest'
      have hboth : parseSeg (serializePair p) = p ∧
          List.map parseSeg
            (List.filter (fun seg => ¬ seg.isEmpty)
              (splitAll '&' (serializeParams (q :: qs)))) = q :: qs :=
        ⟨hseg, by simpa [serializeParams] using hrest'⟩
      simpa using hboth

/-! ### Search-step and pathname lemmas -/

theorem parseParams_nil : parseParams ([] : List Char) = [] := by
  simp [parseParams, splitAll]

theorem deleteUtmParams_cases (s : Option (List Char)) :
    deleteUtmParams s = none ∨
    ∃ t, deleteUtmParams s = some t ∧
      (∀ p ∈ parseParams t, isUtmKey p.1 = false) := by
  unfold deleteUtmParams
  by_cases hutm : (parseParams (s.getD [])).any (fun p => isUtmKey p.1) = true
  · simp only [hutm, if_true]
    by_cases hke :
        ((parseParams (s.getD [])).filter (fun p => !isUtmKey p.1)).isEmpty = true
    · left
      simp only [hke, if_true]
    · right
      refine ⟨serializeParams
          ((parseParams (s.getD [])).filter (fun p => !isUtmKey p.1)),
        by simp [hke], ?_⟩
      intro p hp
      rw [parseParams_serializeParams
        (fun r hr => parseParams_wf r (List.mem_of_mem_filter hr))] at hp
      have := (List.mem_filter.mp hp).2
      simpa using this
  · simp only [hutm, if_false]
    cases s with
    | none => left; rfl
    | some q =>
      right
      refine ⟨q, rfl, ?_⟩
      intro p hp
      rw [List.any_eq_true] at hutm
      push_neg at hutm
      have := hutm p (by simpa using hp)
      simpa using this

theorem clearEmptySearch_cases (s : Option (List Char)) :
    clearEmptySearch s = none ∨
    (clearEmptySearch s = s ∧
      serializeParams (parseParams (s.getD [])) ≠ []) := by
  unfold clearEmptySearch
  by_cases hb : (serializeParams (parseParams (s.getD []))).isEmpty = true
  · left; simp only [hb, if_true]
  · right
    constructor
    · simp [hb]
    · simpa [List.isEmpty_iff] using hb

theorem normSearchStep_none : normSearchStep none = none := by
  unfold normSearchStep deleteUtmParams clearEmptySearch
  simp [parseParams_nil, serializeParams]

theorem normSearchStep_cases (s : Option (List Char)) :
    normSearchStep s = none ∨
    ∃ t, normSearchStep s = some t ∧
      (∀ p ∈ parseParams t, isUtmKey p.1 = false) ∧
      serializeParams (parseParams t) ≠ [] := by
  unfold normSearchStep
  rcases deleteUtmParams_cases s with h1 | ⟨t, ht, hno⟩
  · rw [h1]
    left
    unfold clearEmptySearch
    simp [parseParams_nil, serializeParams]
  · rw [ht]
    rcases clearEmptySearch_cases (some t) with h2 | ⟨h2, h3⟩
    · left; exact h2
    · right
      exact ⟨t, h2, hno, by simpa using h3⟩

theorem normSearchStep_idem (s : Option (List Char)) :
    normSearchStep (normSearchStep s) = normSearchStep s := by
  rcases normSearchStep_cases s with h | ⟨t, ht, hnoutm, hne⟩
  · rw [h, normSearchStep_none]
  · rw [ht]
    unfold normSearchStep
    have hdel : deleteUtmParams (some t) = some t := by
      unfold deleteUtmParams
      have hany : (parseParams ((some t).getD [])).any (fun p => isUtmKey p.1) = false := by
        rw [List.any_eq_false]
        intro p hp
        simp [hnoutm p (by simpa using hp)]
      simp only [hany, Bool.false_eq_true, if_false]
    rw [hdel]
    unfold clearEmptySearch
    rw [if_neg (by simpa [List.isEmpty_iff] using hne)]

theorem dropWhile_head_not {α : Type} (p : α → Bool) (l : List α) :
    l.dropWhile p = [] ∨
    ∃ x xs, l.dropWhile p = x :: xs ∧ p x = false := by
  induction l with
  | nil => simp
  | cons a as ih =>
    by_cases hp : p a
    · simpa [List.dropWhile, hp] using ih
    · right
      exact ⟨a, as, by simp [List.dropWhile, hp], by simpa using hp⟩

theorem dropTrailingSlashes_no_trailing (l : List Char) :
    dropTrailingSlashes l = [] ∨
    (dropTrailingSlashes l).getLast? ≠ some '/' := by
  unfold dropTrailingSlashes
  rcases dropWhile_head_not (fun c => c = '/') l.reverse with h | ⟨x, xs, hx, hpx⟩
  · left; simp [h]
  · right
    rw [hx]
    rw [List.getLast?_reverse]
    simp only [List.head?_cons]
    intro hc
    injection hc with hc
    rw [hc] at hpx
    simp at hpx

theorem dropTrailingSlashes_of_no_trailing {l : List Char}
    (h : l.getLast? ≠ some '/') : dropTrailingSlashes l = l := by
  unfold dropTrailingSlashes
  cases hr : l.reverse with
  | nil =>
    have : l = [] := by simpa using congrArg List.reverse hr
    simp [this]
  | cons x xs =>
    have hlast : l.getLast? = some x := by
      rw [← List.head?_reverse, hr, List.head?_cons]
    have hx : ¬ (x = '/') := by
      intro he; rw [he] at hlast; exact h hlast
    rw [List.dropWhile_cons, if_neg (by simpa using hx)]
    rw [← hr]
    simp

theorem dropTrailingSlashes_mem {l : List Char} {x : Char}
    (h : x ∈ dropTrailingSlashes l) : x ∈ l := by
  unfold dropTrailingSlashes at h
  rw [List.mem_reverse] at h
  have := List.dropWhile_sublist (l := l.reverse) (p := fun c => c = '/')
  have hmem := this.mem h
  rwa [List.mem_reverse] at hmem

theorem dropTrailingSlashes_isPrefix (l : List Char) :
    dropTrailingSlashes l <+: l := by
  unfold dropTrailingSlashes
  have hsuf : List.dropWhile (fun c => c = '/') l.reverse <:+ l.reverse :=
    List.dropWhile_suffix _
  have := List.reverse_prefix.mpr hsuf
  simpa using this

theorem dropTrailingSlashes_head {p : List Char}
    (h : dropTrailingSlashes ('/' :: p) ≠ []) :
    ∃ t, dropTrailingSlashes ('/' :: p) = '/' :: t := by
  obtain ⟨rest, hrest⟩ := dropTrailingSlashes_isPrefix ('/' :: p)
  cases hd : dropTrailingSlashes ('/' :: p) with
  | nil => exact absurd hd h
  | cons c cs =>
    rw [hd] at hrest
    have hc : c = '/' := by
      have hh := congrArg List.head? hrest
      simp at hh
      exact hh
    refine ⟨cs, ?_⟩
    rw [hc]

theorem normPathname_shape (p : List Char) :
    ∃ t, normPathname ('/' :: p) = '/' :: t := by
  unfold normPathname
  by_cases hl : ('/' :: p).length > 1
  · simp only [hl, if_true]
    by_cases he : (dropTrailingSlashes ('/' :: p)).isEmpty
    · rw [if_pos he]; exact ⟨[], rfl⟩
    · rw [if_neg he]
      exact dropTrailingSlashes_head (by simpa [List.isEmpty_iff] using he)
  · simp only [hl, if_false]
    exact ⟨p, rfl⟩

theorem normPathname_idem (p : List Char) :
    normPathname (normPathname ('/' :: p)) = normPathname ('/' :: p) := by
  by_cases hl : ('/' :: p).length > 1
  · have h1 : normPathname ('/' :: p) =
        (if (dropTrailingSlashes ('/' :: p)).isEmpty then ['/']
         else dropTrailingSlashes ('/' :: p)) := by
      unfold normPathname
      rw [if_pos hl]
    by_cases he : (dropTrailingSlashes ('/' :: p)).isEmpty
    · rw [h1, if_pos he]
      decide
    · rw [h1, if_neg he]
      have hne : dropTrailingSlashes ('/' :: p) ≠ [] := by
        simpa [List.isEmpty_iff] using he
      have hnt : (dropTrailingSlashes ('/' :: p)).getLast? ≠ some '/' := by
        rcases dropTrailingSlashes_no_trailing ('/' :: p) with h | h
        · exact absurd h hne
        · exact h
      unfold normPathname
      by_cases hdl : (dropTrailingSlashes ('/' :: p)).length > 1
      · rw [if_pos hdl, dropTrailingSlashes_of_no_trailing hnt]
        rw [if_neg he]
      · rw [if_neg hdl]
  · have hp : p = [] := by
      cases p with
      | nil => rfl
      | cons a as =>
        exfalso
        simp [List.length_cons] at hl
    subst hp
    decide

theorem normPathname_mem {p : List Char} {x : Char}
    (h : x ∈ normPathname p) : x ∈ p ∨ x = '/' := by
  unfold normPathname at h
  by_cases hl : p.length > 1
  · simp only [hl, if_true] at h
    by_cases he : (dropTrailingSlashes p).isEmpty
    · rw [if_pos he] at h
      simp at h
      exact Or.inr h
    · rw [if_neg he] at h
      exact Or.inl (dropTrailingSlashes_mem h)
  · simp only [hl, if_false] at h
    exact Or.inl h

theorem parseUrlChars_wf {cs : List Char} {u : JsUrl}
    (h : parseUrlChars cs = some u) : urlWf u := by
  unfold parseUrlChars at h
  split at h
  · exact absurd h (by simp)
  next sch rest heq =>
    split at h
    next r1 r2 rest2 =>
      split at h
      next hcond =>
        obtain ⟨h1, h2, hsch⟩ := hcond
        rcases hbh : splitFirst '#' rest2 with ⟨bH, oh⟩
        rcases hbq : splitFirst '?' bH with ⟨bQ, oq⟩
        rcases hhp : splitFirst '/' bQ with ⟨hostc, op⟩
        rw [hbh] at h
        simp only at h
        rw [hbq] at h
        simp only at h
        rw [hhp] at h
        simp only at h
        split at h
        · exact absurd h (by simp)
        next hhe =>
          have hu : u = JsUrl.mk sch hostc ('/' :: (op.getD [])) oq oh := by
            have := Option.some.inj h
            exact this.symm
          subst hu
          have hHsub : ∀ x ∈ bH, x ∈ rest2 := by
            cases oh with
            | none =>
              obtain ⟨he, _⟩ := splitFirst_eq_none hbh
              subst he; exact fun x hx => hx
            | some hv =>
              obtain ⟨he, _⟩ := splitFirst_eq_some hbh
              rw [he]; exact fun x hx => List.mem_append_left _ hx
          have hHashNotBH : '#' ∉ bH := by
            cases oh with
            | none =>
              obtain ⟨he, hnm⟩ := splitFirst_eq_none hbh
              subst he; exact hnm
            | some hv => exact (splitFirst_eq_some hbh).2
          have hQsub : ∀ x ∈ bQ, x ∈ bH := by
            cases oq with
            | none =>
              obtain ⟨he, _⟩ := splitFirst_eq_none hbq
              subst he; exact fun x hx => hx
            | some qv =>
              obtain ⟨he, _⟩ := splitFirst_eq_some hbq
              rw [he]; exact fun x hx => List.mem_append_left _ hx
          have hQNotBQ : '?' ∉ bQ := by
            cases oq with
            | none =>
              obtain ⟨he, hnm⟩ := splitFirst_eq_none hbq
              subst he; exact hnm
            | some qv => exact (splitFirst_eq_some hbq).2
          have hHostSub : ∀ x ∈ hostc, x ∈ bQ := by
            cases op with
            | none =>
              obtain ⟨he, _⟩ := splitFirst_eq_none hhp
              subst he; exact fun x hx => hx
            | some pv =>
              obtain ⟨he, _⟩ := splitFirst_eq_some hhp
              rw [he]; exact fun x hx => List.mem_append_left _ hx
          have hPathSub : ∀ x ∈ op.getD [], x ∈ bQ := by
            cases op with
            | none => simp
            | some pv =>
              obtain ⟨he, _⟩ := splitFirst_eq_some hhp
              rw [he]
              exact fun x hx =>
                List.mem_append_right _ (List.mem_cons_of_mem _ (by simpa using hx))
          refine ⟨hsch, ?_, ?_, ?_, ?_, ⟨op.getD [], rfl⟩, ?_, ?_, ?_⟩
          · simpa [List.isEmpty_iff] using hhe
          · cases op with
            | none =>
              obtain ⟨he, hnm⟩ := splitFirst_eq_none hhp
              subst he; exact hnm
            | some pv => exact (splitFirst_eq_some hhp).2
          · exact fun hm => hQNotBQ (hHostSub _ hm)
          · exact fun hm => hHashNotBH (hQsub _ (hHostSub _ hm))
          · intro hm
            rcases List.mem_cons.mp hm with hm | hm
            · exact absurd hm.symm (by decide)
            · exact hQNotBQ (hPathSub _ hm)
          · intro hm
            rcases List.mem_cons.mp hm with hm | hm
            · exact absurd hm.symm (by decide)
            · exact hHashNotBH (hQsub _ (hPathSub _ hm))
          · intro q hq
            cases oq with
            | none => simp at hq
            | some qv =>
              obtain ⟨he, _⟩ := splitFirst_eq_some hbq
              have hqv : q = qv := by
                injection hq with hh
                exact hh.symm
              subst hqv
              intro hm
              have : '#' ∈ bH := by
                rw [he]
                exact List.mem_append_right _ (List.mem_cons_of_mem _ hm)
              exact hHashNotBH this
      · exact absurd h (by simp)
    next => exact absurd h (by simp)

theorem parseUrlChars_cons {sch : List Char} (r1 r2 : Char) (R : List Char)
    (hc : ':' ∉ sch) :
    parseUrlChars (sch ++ ':' :: r1 :: r2 :: R) =
      if r1 = '/' ∧ r2 = '/' ∧ schemeOk sch = true then
        (if (splitFirst '/' (splitFirst '?' (splitFirst '#' R).1).1).1.isEmpty then none
         else some (JsUrl.mk sch
            (splitFirst '/' (splitFirst '?' (splitFirst '#' R).1).1).1
            ('/' :: ((splitFirst '/' (splitFirst '?' (splitFirst '#' R).1).1).2.getD []))
            (splitFirst '?' (splitFirst '#' R).1).2
            (splitFirst '#' R).2))
      else none := by
  unfold parseUrlChars
  rw [splitFirst_append hc]

theorem parseUrlChars_serializeUrl {u : JsUrl} (h : urlWf u) :
    parseUrlChars (serializeUrl u) = some u := by
  obtain ⟨hsch, hne, hs1, hs2, hs3, ⟨p, hp⟩, hq1, hq2, hq3⟩ := h
  cases u with
  | mk schemev hostv pathv searchv hashv =>
  simp only at hsch hne hs1 hs2 hs3 hp hq1 hq2 hq3
  subst hp
  have hcolon : ':' ∉ schemev := schemeOk_colon_not_mem hsch
  have hser : serializeUrl (JsUrl.mk schemev hostv ('/' :: p) searchv hashv)
      = schemev ++ ':' :: '/' :: '/' ::
          (hostv ++ '/' :: p ++ queryPart searchv ++ fragPart hashv) := by
    cases searchv <;> cases hashv <;>
      simp [serializeUrl, queryPart, fragPart, List.append_assoc]
  have hQnoHash : '#' ∉ queryPart searchv := by
    cases searchv with
    | none => simp [queryPart]
    | some qv =>
      simp only [queryPart]
      intro hm
      rcases List.mem_cons.mp hm with hm | hm
      · exact absurd hm (by decide)
      · exact hq3 qv rfl hm
  have hnoHash : '#' ∉ hostv ++ '/' :: p ++ queryPart searchv := by
    intro hm
    rcases List.mem_append.mp hm with hm | hm
    · rcases List.mem_append.mp hm with hm | hm
      · exact hs3 hm
      · exact hq2 hm
    · exact hQnoHash hm
  have e_hash : splitFirst '#'
        (hostv ++ '/' :: p ++ queryPart searchv ++ fragPart hashv)
      = (hostv ++ '/' :: p ++ queryPart searchv, hashv) := by
    cases hashv with
    | none =>
      simp only [fragPart, List.append_nil]
      exact splitFirst_of_not_mem hnoHash
    | some hv =>
      simp only [fragPart]
      exact splitFirst_append hnoHash
  have hnoQ : '?' ∉ hostv ++ '/' :: p := by
    intro hm
    rcases List.mem_append.mp hm with hm | hm
    · exact hs2 hm
    · exact hq1 hm
  have e_query : splitFirst '?' (hostv ++ '/' :: p ++ queryPart searchv)
      = (hostv ++ '/' :: p, searchv) := by
    cases searchv with
    | none =>
      simp only [queryPart, List.append_nil]
      exact splitFirst_of_not_mem hnoQ
    | some qv =>
      simp only [queryPart]
      exact splitFirst_append hnoQ
  have e_slash : splitFirst '/' (hostv ++ '/' :: p) = (hostv, some p) :=
    splitFirst_append hs1
  rw [hser, parseUrlChars_cons '/' '/' _ hcolon,
    if_pos (⟨rfl, rfl, hsch⟩ :
      ('/' : Char) = '/' ∧ ('/' : Char) = '/' ∧ schemeOk schemev = true)]
  rw [e_hash]
  simp only
  rw [e_query]
  simp only
  rw [e_slash]
  simp only [Option.getD_some]
  rw [if_neg (by simpa [List.isEmpty_iff] using hne)]

theorem clearEmptySearch_some {s : Option (List Char)} {t : List Char}
    (h : clearEmptySearch s = some t) : s = some t := by
  unfold clearEmptySearch at h
  by_cases hb : (serializeParams (parseParams (s.getD []))).isEmpty = true
  · rw [if_pos hb] at h; exact absurd h (by simp)
  · rwa [if_neg hb] at h

theorem deleteUtmParams_mem {s : Option (List Char)} {t : List Char}
    (h : deleteUtmParams s = some t) :
    ∀ x ∈ t, x = '&' ∨ x = '=' ∨ ∃ q0, s = some q0 ∧ x ∈ q0 := by
  intro x hx
  cases s with
  | none =>
    unfold deleteUtmParams at h
    simp [parseParams_nil] at h
  | some q0 =>
    unfold deleteUtmParams at h
    by_cases hutm : (parseParams ((some q0).getD [])).any (fun p => isUtmKey p.1) = true
    · rw [if_pos hutm] at h
      by_cases hke :
          ((parseParams ((some q0).getD [])).filter (fun p => !isUtmKey p.1)).isEmpty = true
      · rw [if_pos hke] at h; exact absurd h (by simp)
      · rw [if_neg hke] at h
        have ht : t = serializeParams
            ((parseParams q0).filter (fun p => !isUtmKey p.1)) := by
          have := Option.some.inj h
          simpa using this.symm
        subst ht
        rcases serializeParams_mem hx with h1 | h1 | ⟨p, hp, hmem⟩
        · exact Or.inl h1
        · exact Or.inr (Or.inl h1)
        · have hp' : p ∈ parseParams q0 := List.mem_of_mem_filter hp
          obtain ⟨w1, w2⟩ := parseParams_mem_subset p hp'
          rcases hmem with hmem | hmem
          · exact Or.inr (Or.inr ⟨q0, rfl, w1 x hmem⟩)
          · exact Or.inr (Or.inr ⟨q0, rfl, w2 x hmem⟩)
    · rw [if_neg hutm] at h
      have ht : q0 = t := Option.some.inj h
      subst ht
      exact Or.inr (Or.inr ⟨q0, rfl, hx⟩)

theorem normSearchStep_mem {s : Option (List Char)} {t : List Char}
    (h : normSearchStep s = some t) :
    ∀ x ∈ t, x = '&' ∨ x = '=' ∨ ∃ q0, s = some q0 ∧ x ∈ q0 :=
  deleteUtmParams_mem (clearEmptySearch_some h)

theorem normalizeJsUrl_wf {u : JsUrl} (h : urlWf u) :
    urlWf (normalizeJsUrl u) := by
  obtain ⟨hsch, hne, hs1, hs2, hs3, ⟨p, hp⟩, hq1, hq2, hq3⟩ := h
  refine ⟨by simpa [normalizeJsUrl] using hsch, by simpa [normalizeJsUrl] using hne,
    by simpa [normalizeJsUrl] using hs1, by simpa [normalizeJsUrl] using hs2,
    by simpa [normalizeJsUrl] using hs3, ?_, ?_, ?_, ?_⟩
  · simp only [normalizeJsUrl, hp]
    exact normPathname_shape p
  · simp only [normalizeJsUrl, hp]
    intro hm
    rcases normPathname_mem hm with hm | hm
    · exact hq1 (hp ▸ hm)
    · exact absurd hm (by decide)
  · simp only [normalizeJsUrl, hp]
    intro hm
    rcases normPathname_mem hm with hm | hm
    · exact hq2 (hp ▸ hm)
    · exact absurd hm (by decide)
  · simp only [normalizeJsUrl]
    intro q hq hm
    rcases normSearchStep_mem hq '#' hm with h1 | h1 | ⟨q0, hq0, h1⟩
    · exact absurd h1 (by decide)
    · exact absurd h1 (by decide)
    · exact hq3 q0 hq0 h1

theorem normalizeJsUrl_idem {u : JsUrl} (h : urlWf u) :
    normalizeJsUrl (normalizeJsUrl u) = normalizeJsUrl u := by
  obtain ⟨_, _, _, _, _, ⟨p, hp⟩, _, _, _⟩ := h
  cases u with
  | mk schemev hostv pathv searchv hashv =>
  simp only at hp
  subst hp
  simp [normalizeJsUrl, normSearchStep_idem, normPathname_idem]

/-- `normalizeUrlForDedupe` on a string whose URL parses, expressed via
the parsed record. -/
theorem normalizeUrlForDedupe_of_parse {s : String} {u : JsUrl}
    (hu : parseUrlChars s.data = some u) :
    normalizeUrlForDedupe s = String.mk (serializeUrl (normalizeJsUrl u)) := by
  unfold normalizeUrlForDedupe
  rw [hu]

/-- C8: URL canonicalisation for dedupe is idempotent — for every valid
absolute URL string `u` (a string the URL model parses),
`normalizeUrlForDedupe (normalizeUrlForDedupe u) = normalizeUrlForDedupe u`. -/
theorem C8_normalizeUrlForDedupe_idempotent (s : String)
    (h : (parseUrlChars s.data).isSome) :
    normalizeUrlForDedupe (normalizeUrlForDedupe s) = normalizeUrlForDedupe s := by
  obtain ⟨u, hu⟩ := Option.isSome_iff_exists.mp h
  have hwf := parseUrlChars_wf hu
  have hwf' := normalizeJsUrl_wf hwf
  rw [normalizeUrlForDedupe_of_parse hu]
  have hparse2 : parseUrlChars (String.mk (serializeUrl (normalizeJsUrl u))).data
      = some (normalizeJsUrl u) := by
    have hdm : (String.mk (serializeUrl (normalizeJsUrl u))).data
        = serializeUrl (normalizeJsUrl u) := rfl
    rw [hdm]
    exact parseUrlChars_serializeUrl hwf'
  rw [normalizeUrlForDedupe_of_parse hparse2]
  rw [normalizeJsUrl_idem hwf]

/-- Witness for C8 at the concrete URL
`https://a.example/p/?utm_source=x#f` (which parses, and on which both
normalisation passes agree). -/
theorem C8_witness :
    (parseUrlChars ("https://a.example/p/?utm_source=x#f" : String).data).isSome ∧
    normalizeUrlForDedupe
        (normalizeUrlForDedupe "https://a.example/p/?utm_source=x#f")
      = normalizeUrlForDedupe "https://a.example/p/?utm_source=x#f" :=
  ⟨by decide, C8_normalizeUrlForDedupe_idempotent _ (by decide)⟩


/-- C6: the current prober classifies a status as ok exactly when it is
in 200–399 or is one of 401, 403, 406, 418, 429, 451. -/
theorem C6_isProbablyOkStatus_exact (s : Nat) :
    isProbablyOkStatus s = true ↔
      ((200 ≤ s ∧ s ≤ 399) ∨ s = 401 ∨ s = 403 ∨ s = 406 ∨ s = 418
        ∨ s = 429 ∨ s = 451) := by
  by_cases h1 : 200 ≤ s ∧ s ≤ 399
  · simp only [isProbablyOkStatus, h1, if_true]
    simp [h1]
  · by_cases h2 : s = 401 ∨ s = 403 ∨ s = 406 ∨ s = 418 ∨ s = 429 ∨ s = 451
    · simp only [isProbablyOkStatus, h1, if_false, h2, if_true]
      simp [h2]
    · simp only [isProbablyOkStatus, h1, if_false, h2]
      simp [h1, h2]

/-- C9: a failed fetch (network error, DNS failure, timeout/abort —
the `Except.error` case of the fetch oracle) makes `checkOne` return a
not-ok result whose reason is the transport error message, on the HEAD
attempt and on the GET retry alike; and `checkUrls` likewise maps every
checked URL of an always-failing oracle to that not-ok result — errors
are returned as data, never propagated. -/
theorem C9_prober_transport_errors
    (fetch : HttpMethod → Except String HttpResponse) (url e : String) :
    (fetch HttpMethod.head = Except.error e →
      checkOne fetch url = ⟨url, false, none, some e, none⟩)
    ∧ (∀ res, fetch HttpMethod.head = Except.ok res →
        ((400 ≤ res.status ∧ res.status ≤ 599) ∨ res.status = 405) →
        fetch HttpMethod.get = Except.error e →
        checkOne fetch url = ⟨url, false, none, some e, none⟩)
    ∧ (∀ (g : String → HttpMethod → Except String HttpResponse)
          (urls : List String) (soft404 : Bool),
        (∀ u m, g u m = Except.error e) →
        ∀ p ∈ checkUrls g urls soft404,
          p.2 = ⟨p.1, false, none, some e, none⟩) := by
  refine ⟨?_, ?_, ?_⟩
  · intro h
    unfold checkOne
    rw [h]
  · intro res hres hretry hget
    unfold checkOne
    rw [hres]
    simp only
    rw [if_pos hretry, hget]
  · intro g urls s4 hg p hp
    unfold checkUrls at hp
    obtain ⟨u, _, hpu⟩ := List.mem_map.mp hp
    have hone : checkOne (g u) u = ⟨u, false, none, some e, none⟩ := by
      unfold checkOne
      rw [hg u HttpMethod.head]
    have hsoft : checkOneSoft (g u) u s4 = ⟨u, false, none, some e, none⟩ := by
      unfold checkOneSoft
      rw [hone]
      simp
    rw [← hpu]
    simpa using hsoft

/-- Witness for C9: a concrete always-refusing oracle yields the
transport-reason result through both `checkOne` and `checkUrls`. -/
theorem C9_witness :
    checkOne (fun _ => Except.error "ECONNREFUSED") "https://x.example/"
      = ⟨"https://x.example/", false, none, some "ECONNREFUSED", none⟩ ∧
    checkUrls (fun _ _ => Except.error "ECONNREFUSED") ["https://x.example/"] true
      = [("https://x.example/",
          ⟨"https://x.example/", false, none, some "ECONNREFUSED", none⟩)] :=
  ⟨(C9_prober_transport_errors (fun _ => Except.error "ECONNREFUSED")
      "https://x.example/" "ECONNREFUSED").1 rfl,
    by decide⟩

/-- C4: after `enforceAllowedUrlsOnReport` — the guard applied to both
branches of report-from-sources generation, including the structure-only
repair path — every (non-empty) link/url field in the result is, up to
URL canonicalisation, a member of the supplied allow-list; the repair
never introduces a URL outside it. -/
theorem C4_enforceAllowedUrls_allowlist (report : WeeklyReport)
    (allowedUrls : List String) :
    (∀ h ∈ (enforceAllowedUrlsOnReport report allowedUrls).top_highlights,
      ∀ u, h.link = some u → u ≠ "" →
        (allowedUrls.map normalizeUrl).contains (normalizeUrl u) = true)
    ∧ (∀ e ∈ (enforceAllowedUrlsOnReport report allowedUrls).category_updates,
        ∀ x ∈ e.2, ∀ u, x.url = some u → u ≠ "" →
          (allowedUrls.map normalizeUrl).contains (normalizeUrl u) = true)
    ∧ (∀ x ∈ (enforceAllowedUrlsOnReport report allowedUrls).overseas_competitor_updates,
        ∀ u, x.url = some u → u ≠ "" →
          (allowedUrls.map normalizeUrl).contains (normalizeUrl u) = true)
    ∧ (∀ h ∈ (enforceAllowedUrlsOnReport report allowedUrls).hiring_signals,
        ∀ u, h.url = some u → u ≠ "" →
          (allowedUrls.map normalizeUrl).contains (normalizeUrl u) = true) := by
  have hpass : ∀ (o : Option String) (u : String),
      passesAllowed (allowedUrls.map normalizeUrl) o = true →
      o = some u → u ≠ "" →
      (allowedUrls.map normalizeUrl).contains (normalizeUrl u) = true := by
    intro o u hp ho hne
    subst ho
    unfold passesAllowed at hp
    rw [if_pos (by simp [truthy, hne])] at hp
    simpa using hp
  refine ⟨?_, ?_, ?_, ?_⟩
  · intro h hmem u hu hne
    have := (List.mem_filter.mp hmem).2
    exact hpass h.link u (by simpa using this) hu hne
  · intro ecat hecat x hx u hu hne
    unfold enforceAllowedUrlsOnReport at hecat
    simp only [weeklyReportSchemaParse] at hecat
    obtain ⟨e0, _, he0⟩ := List.mem_map.mp hecat
    rw [← he0] at hx
    have := (List.mem_filter.mp hx).2
    exact hpass x.url u (by simpa using this) hu hne
  · intro x hmem u hu hne
    have := (List.mem_filter.mp hmem).2
    exact hpass x.url u (by simpa using this) hu hne
  · intro h hmem u hu hne
    have := (List.mem_filter.mp hmem).2
    exact hpass h.url u (by simpa using this) hu hne

/-- Witness for C4 at a concrete report whose single highlight link is
on the allow-list (and is retained). -/
theorem C4_witness :
    hlC4 ∈ (enforceAllowedUrlsOnReport repC4 ["https://ok.example/a"]).top_highlights
    ∧ (["https://ok.example/a"].map normalizeUrl).contains
        (normalizeUrl "https://ok.example/a") = true :=
  ⟨by decide,
    (C4_enforceAllowedUrls_allowlist repC4 ["https://ok.example/a"]).1 hlC4
      (by decide) "https://ok.example/a" rfl (by decide)⟩

/-- C5 counterexample: the candidate `ftp://example.com/x` is accepted
by source-list parsing with its url unchanged, yet that url is not an
absolute http(s) URL — ingestion only requires `new URL` to accept the
string, not an http(s) scheme. -/
theorem C5_counterexample :
    sourceListSchemaParse [ftpRaw]
      = [⟨"A", "CAT-A", "t", "ftp://example.com/x", none, none, none⟩]
    ∧ isHttpAbsoluteUrl "ftp://example.com/x" = false := by decide

/-- C5 (amended): every accepted SourceItem has a url that parses as an
absolute URL (any scheme), and a candidate whose url — after the
`coerceUrl` preprocessing — does not parse as a URL is dropped. -/
theorem C5_sourceList_url_parses (items : List RawSourceItem) :
    (∀ it ∈ sourceListSchemaParse items,
      (parseUrlChars it.url.data).isSome = true)
    ∧ (∀ r ∈ items,
        (parseUrlChars ((coerceUrl r.url).getD r.url).data).isSome = false →
        parseSourceItem r = none) := by
  have hchar : ∀ (r : RawSourceItem) (it : SourceItem),
      parseSourceItem r = some it →
      it.url = (coerceUrl r.url).getD r.url ∧
        (parseUrlChars ((coerceUrl r.url).getD r.url).data).isSome = true := by
    intro r it h
    unfold parseSourceItem at h
    by_cases h1 : r.company.length = 0
    · rw [if_pos h1] at h; exact absurd h (by simp)
    rw [if_neg h1] at h
    by_cases h2 : (!(categoryIds.contains r.category)) = true
    · rw [if_pos h2] at h; exact absurd h (by simp)
    rw [if_neg h2] at h
    by_cases h3 : r.title.length = 0
    · rw [if_pos h3] at h; exact absurd h (by simp)
    rw [if_neg h3] at h
    by_cases h4 : (!(parseUrlChars ((coerceUrl r.url).getD r.url).data).isSome) = true
    · rw [if_pos h4] at h; exact absurd h (by simp)
    rw [if_neg h4] at h
    have hsome : (parseUrlChars ((coerceUrl r.url).getD r.url).data).isSome = true := by
      cases hb : (parseUrlChars ((coerceUrl r.url).getD r.url).data).isSome with
      | true => rfl
      | false => exact absurd (by simp [hb]) h4
    refine ⟨?_, hsome⟩
    split at h
    · have := Option.some.inj h
      rw [← this]
    next q hq =>
      by_cases h5 : (jsTrim q).length ≥ 20
      · rw [if_pos h5] at h
        by_cases h6 : (jsTrim q).length ≤ 400
        · rw [if_pos h6] at h
          have := Option.some.inj h
          rw [← this]
        · rw [if_neg h6] at h; exact absurd h (by simp)
      · rw [if_neg h5] at h
        have := Option.some.inj h
        rw [← this]
  constructor
  · intro it hit
    obtain ⟨r, _, hpr⟩ := List.mem_filterMap.mp hit
    obtain ⟨hu, hsome⟩ := hchar r it hpr
    rw [hu]
    exact hsome
  · intro r _ hbad
    unfold parseSourceItem
    by_cases h1 : r.company.length = 0
    · rw [if_pos h1]
    · rw [if_neg h1]
      by_cases h2 : (!(categoryIds.contains r.category)) = true
      · rw [if_pos h2]
      · rw [if_neg h2]
        by_cases h3 : r.title.length = 0
        · rw [if_pos h3]
        · rw [if_neg h3]
          rw [if_pos (by simp [hbad])]

/-- Witness for C5 at a concrete accepted https item. -/
theorem C5_witness :
    (parseUrlChars (itemGood.url).data).isSome = true :=
  (C5_sourceList_url_parses [rawGood]).1 itemGood (by decide)

/-- C3: dedup-ledger filtering is sound.  For every report and seen-URL
set, no surviving item of any section carries a (truthy) link whose
canonical form is in the seen set, and every item without a link (the
code treats `undefined` and `""` alike as "no link") is retained in its
section. -/
theorem C3_filterReportBySeenUrls_sound (report : WeeklyReport)
    (seen : List String) :
    (∀ h ∈ (filterReportBySeenUrls report seen).top_highlights,
      ∀ u, h.link = some u → u ≠ "" →
        seen.contains (normalizeUrlForDedupe u) = false)
    ∧ (∀ e ∈ (filterReportBySeenUrls report seen).category_updates,
        ∀ x ∈ e.2, ∀ u, x.url = some u → u ≠ "" →
          seen.contains (normalizeUrlForDedupe u) = false)
    ∧ (∀ x ∈ (filterReportBySeenUrls report seen).overseas_competitor_updates,
        ∀ u, x.url = some u → u ≠ "" →
          seen.contains (normalizeUrlForDedupe u) = false)
    ∧ (∀ h ∈ (filterReportBySeenUrls report seen).hiring_signals,
        ∀ u, h.url = some u → u ≠ "" →
          seen.contains (normalizeUrlForDedupe u) = false)
    ∧ (∀ h ∈ report.top_highlights, truthy h.link = false →
        h ∈ (filterReportBySeenUrls report seen).top_highlights)
    ∧ (∀ e ∈ report.category_updates, ∀ x ∈ e.2, truthy x.url = false →
        (e.1, e.2.filter (fun u => isNewUrl seen u.url))
            ∈ (filterReportBySeenUrls report seen).category_updates
          ∧ x ∈ e.2.filter (fun u => isNewUrl seen u.url))
    ∧ (∀ x ∈ report.overseas_competitor_updates, truthy x.url = false →
        x ∈ (filterReportBySeenUrls report seen).overseas_competitor_updates)
    ∧ (∀ h ∈ report.hiring_signals, truthy h.url = false →
        h ∈ (filterReportBySeenUrls report seen).hiring_signals) := by
  have hnew : ∀ (o : Option String) (u : String), isNewUrl seen o = true →
      o = some u → u ≠ "" → seen.contains (normalizeUrlForDedupe u) = false := by
    intro o u hn ho hne
    subst ho
    unfold isNewUrl at hn
    rw [if_pos (by simp [truthy, hne])] at hn
    simpa using hn
  have hkeep : ∀ (o : Option String), truthy o = false → isNewUrl seen o = true := by
    intro o ht
    unfold isNewUrl
    rw [if_neg (by simp [ht])]
  refine ⟨?_, ?_, ?_, ?_, ?_, ?_, ?_, ?_⟩
  · intro h hmem u hu hne
    have hmem2 : h ∈ report.top_highlights.filter (fun h => isNewUrl seen h.link) := hmem
    have hp : isNewUrl seen h.link = true := (List.mem_filter.mp hmem2).2
    exact hnew h.link u hp hu hne
  · intro e hmem x hx u hu hne
    have hmem2 : e ∈ report.category_updates.map
        (fun e => (e.1, e.2.filter (fun u => isNewUrl seen u.url))) := hmem
    obtain ⟨e0, _, he0⟩ := List.mem_map.mp hmem2
    rw [← he0] at hx
    have hx2 : x ∈ e0.2.filter (fun u => isNewUrl seen u.url) := hx
    have hp : isNewUrl seen x.url = true := (List.mem_filter.mp hx2).2
    exact hnew x.url u hp hu hne
  · intro x hmem u hu hne
    have hmem2 : x ∈ report.overseas_competitor_updates.filter
        (fun u => isNewUrl seen u.url) := hmem
    have hp : isNewUrl seen x.url = true := (List.mem_filter.mp hmem2).2
    exact hnew x.url u hp hu hne
  · intro h hmem u hu hne
    have hmem2 : h ∈ report.hiring_signals.filter (fun h => isNewUrl seen h.url) := hmem
    have hp : isNewUrl seen h.url = true := (List.mem_filter.mp hmem2).2
    exact hnew h.url u hp hu hne
  · intro h hmem ht
    exact List.mem_filter.mpr ⟨hmem, hkeep h.link ht⟩
  · intro e hmem x hx ht
    constructor
    · show (e.1, e.2.filter (fun u => isNewUrl seen u.url)) ∈
        report.category_updates.map
          (fun e => (e.1, e.2.filter (fun u => isNewUrl seen u.url)))
      exact List.mem_map.mpr ⟨e, hmem, rfl⟩
    · exact List.mem_filter.mpr ⟨hx, hkeep x.url ht⟩
  · intro x hmem ht
    show x ∈ report.overseas_competitor_updates.filter (fun u => isNewUrl seen u.url)
    exact List.mem_filter.mpr ⟨hmem, hkeep x.url ht⟩
  · intro h hmem ht
    show h ∈ report.hiring_signals.filter (fun h => isNewUrl seen h.url)
    exact List.mem_filter.mpr ⟨hmem, hkeep h.url ht⟩

/-- Witness for C3 on the spec scenario: the seen set of week 2026-W03
holds `https://a.example/x`; a highlight linking to
`https://a.example/x?utm_source=x` is fully filtered out of
`top_highlights` (normalisation-aware dedup), while the link-less hiring
signal is retained (via the theorem). -/
theorem C3_witness :
    (getSeenUrlSetForWeek histC3 "2026-W03").contains
        (normalizeUrlForDedupe "https://a.example/x?utm_source=x") = true
    ∧ (filterReportBySeenUrls repC3
        (getSeenUrlSetForWeek histC3 "2026-W03")).top_highlights = []
    ∧ hsC3 ∈ (filterReportBySeenUrls repC3
        (getSeenUrlSetForWeek histC3 "2026-W03")).hiring_signals :=
  ⟨by decide, by decide,
    (C3_filterReportBySeenUrls_sound repC3
        (getSeenUrlSetForWeek histC3 "2026-W03")).2.2.2.2.2.2.2 hsC3
      (by decide) (by decide)⟩

theorem foldl_overseas_eq (f : WeeklyReport → CategoryConfig → WeeklyReport)
    (hf : ∀ r c, (f r c).overseas_competitor_updates
      = r.overseas_competitor_updates) :
    ∀ (cats : List CategoryConfig) (rep : WeeklyReport),
      (cats.foldl f rep).overseas_competitor_updates
        = rep.overseas_competitor_updates := by
  intro cats
  induction cats with
  | nil => intro rep; rfl
  | cons c cs ih =>
    intro rep
    rw [List.foldl_cons, ih, hf]

theorem fillCategoryPhase_overseas (config : ResearchConfig)
    (companyHq : List (String × String)) (sources : List SourceItem)
    (rep : WeeklyReport) :
    (fillCategoryPhase config companyHq sources rep).overseas_competitor_updates
      = rep.overseas_competitor_updates := by
  unfold fillCategoryPhase
  apply foldl_overseas_eq
  intro r c
  rfl

theorem actionPhase_overseas (rep : WeeklyReport) :
    (actionPhase rep).overseas_competitor_updates
      = rep.overseas_competitor_updates := by
  unfold actionPhase
  split <;> rfl

theorem fillOverseasPhase_len (config : ResearchConfig)
    (companyHq : List (String × String)) (sources : List SourceItem)
    (rep : WeeklyReport) (h : rep.overseas_competitor_updates.length ≤ 15) :
    (fillOverseasPhase config companyHq sources rep).overseas_competitor_updates.length
      ≤ 15 := by
  unfold fillOverseasPhase
  split
  · exact List.length_take_le _ _
  · exact h

/-- C10: every operation writing `overseas_competitor_updates` keeps it
at no more than 15 items, provided the input list has at most 15 (the
origin classifier even unconditionally); `fillOverseasFromSourcesFallback`
is bounded by its `maxItems` argument, which defaults to 15 and is 15 at
its one call site.  Excess items are discarded by `slice(0, 15)`. -/
theorem C10_overseas_cap :
    (∀ (rep : WeeklyReport) (hq : List (String × String)),
      (splitOverseasFromCategoryUpdatesByHq rep hq).overseas_competitor_updates.length ≤ 15)
    ∧ (∀ rep : WeeklyReport, rep.overseas_competitor_updates.length ≤ 15 →
        (ensureOverseasCompetitorSection rep).overseas_competitor_updates.length ≤ 15)
    ∧ (∀ (rep : WeeklyReport) (sources : List SourceItem)
          (config : ResearchConfig) (hq : List (String × String)),
        rep.overseas_competitor_updates.length ≤ 15 →
        (fillReportFromSourcesFallback rep sources config hq).overseas_competitor_updates.length ≤ 15)
    ∧ (∀ (rep : WeeklyReport) (sources : List SourceItem)
          (hq : List (String × String)) (mi mx : Option Nat),
        mx.getD 15 ≤ 15 →
        (fillOverseasFromSourcesFallback rep sources hq mi mx).overseas_competitor_updates.length ≤ 15) := by
  refine ⟨?_, ?_, ?_, ?_⟩
  · intro rep hq
    unfold splitOverseasFromCategoryUpdatesByHq
    simp only [weeklyReportSchemaParse]
    exact List.length_take_le _ _
  · intro rep hle
    unfold ensureOverseasCompetitorSection
    dsimp only
    split
    · exact hle
    · simp only [weeklyReportSchemaParse]
      exact List.length_take_le _ _
  · intro rep sources config hq hle
    unfold fillReportFromSourcesFallback
    simp only [weeklyReportSchemaParse]
    rw [actionPhase_overseas]
    exact fillOverseasPhase_len config hq sources _
      (by rw [fillCategoryPhase_overseas]; exact hle)
  · intro rep sources hq mi mx hmx
    unfold fillOverseasFromSourcesFallback
    simp only [weeklyReportSchemaParse]
    exact le_trans (List.length_take_le _ _) hmx

/-- Witness for C10 at a concrete report with an empty overseas list and
the default `maxItems`. -/
theorem C10_witness :
    repC3.overseas_competitor_updates.length ≤ 15
    ∧ (ensureOverseasCompetitorSection repC3).overseas_competitor_updates.length ≤ 15
    ∧ (fillOverseasFromSourcesFallback repC3 [] [] none none).overseas_competitor_updates.length ≤ 15 :=
  ⟨by decide, C10_overseas_cap.2.1 repC3 (by decide),
    C10_overseas_cap.2.2.2 repC3 [] [] none none (by decide)⟩


theorem map_fst_filter_key {α : Type} (weeks : List (String × α))
    (q : String → Bool) :
    (weeks.filter (fun e => q e.1)).map Prod.fst
      = (weeks.map Prod.fst).filter q := by
  induction weeks with
  | nil => rfl
  | cons e es ih =>
    by_cases hq : q e.1 = true
    · simp [List.filter_cons, hq, ih]
    · simp [List.filter_cons, hq, ih]

theorem setAssoc_keys_nodup {α : Type} {m : List (String × α)} (k : String)
    (v : α) (hnd : (m.map Prod.fst).Nodup) :
    ((setAssoc m k v).map Prod.fst).Nodup := by
  unfold setAssoc
  by_cases hm : m.any (fun e => e.1 = k) = true
  · rw [if_pos hm]
    have heq : (m.map (fun e => if e.1 = k then (k, v) else e)).map Prod.fst
        = m.map Prod.fst := by
      rw [List.map_map]
      apply List.map_congr_left
      intro e _
      by_cases he : e.1 = k
      · simp [he]
      · simp [he]
    rw [heq]
    exact hnd
  · rw [if_neg hm]
    rw [List.map_append]
    rw [List.nodup_append]
    refine ⟨hnd, by simp, ?_⟩
    intro a ha
    simp only [List.map_cons, List.map_nil, List.mem_singleton]
    intro hak
    subst hak
    rw [List.any_eq_true] at hm
    push_neg at hm
    obtain ⟨e, he, hae⟩ := List.mem_map.mp ha
    exact hm e he (by simpa using hae)

theorem char_toNat_inj {a b : Char} (h : a.toNat = b.toNat) : a = b := by
  exact Char.ext (UInt32.ext h)

theorem charsLe_total (a b : List Char) :
    charsLe a b = true ∨ charsLe b a = true := by
  induction a generalizing b with
  | nil => left; rfl
  | cons x xs ih =>
    cases b with
    | nil => right; rfl
    | cons y ys =>
      by_cases hxy : x = y
      · subst hxy
        rcases ih ys with h | h
        · left; simpa [charsLe] using h
        · right; simpa [charsLe] using h
      · rcases Nat.lt_or_ge x.toNat y.toNat with h | h
        · left; simp [charsLe, hxy, h]
        · have hlt : y.toNat < x.toNat := by
            rcases Nat.lt_or_ge y.toNat x.toNat with h2 | h2
            · exact h2
            · exact absurd (char_toNat_inj (Nat.le_antisymm h h2)).symm hxy
          right
          simp [charsLe, Ne.symm hxy, hlt]

theorem charsLe_trans {a b c : List Char} (h1 : charsLe a b = true)
    (h2 : charsLe b c = true) : charsLe a c = true := by
  induction a generalizing b c with
  | nil => rfl
  | cons x xs ih =>
    cases b with
    | nil => simp [charsLe] at h1
    | cons y ys =>
      cases c with
      | nil => simp [charsLe] at h2
      | cons z zs =>
        by_cases hxy : x = y
        · subst hxy
          simp only [charsLe, if_pos rfl] at h1
          by_cases hyz : x = z
          · subst hyz
            simp only [charsLe, if_pos rfl] at h2 ⊢
            exact ih h1 h2
          · simp only [charsLe, hyz, if_false] at h2 ⊢
            exact h2
        · simp only [charsLe, hxy, if_false] at h1
          have hxylt : x.toNat < y.toNat := by simpa using h1
          by_cases hyz : y = z
          · have hxz : ¬ x = z := fun he => hxy (by rw [he, ← hyz])
            simp only [charsLe, hxz, if_false]
            rw [← hyz]
            simpa using hxylt
          · simp only [charsLe, hyz, if_false] at h2
            have hyzlt : y.toNat < z.toNat := by simpa using h2
            have hxzlt : x.toNat < z.toNat := Nat.lt_trans hxylt hyzlt
            have hxz : ¬ x = z := by
              intro he
              subst he
              exact Nat.lt_irrefl _ hxzlt
            simp only [charsLe, hxz, if_false]
            simpa using hxzlt

theorem pruneWeeks_spec (weeks : List (String × WeekEntry)) (keep : Nat)
    (hnd : (weeks.map Prod.fst).Nodup) :
    (pruneWeeks weeks keep).length = min keep weeks.length
    ∧ (∀ e ∈ pruneWeeks weeks keep, e ∈ weeks)
    ∧ (∀ k ∈ weeks.map Prod.fst,
        k ∉ (pruneWeeks weeks keep).map Prod.fst →
        ∀ k2 ∈ (pruneWeeks weeks keep).map Prod.fst,
          strLe k k2 = true ∧ k ≠ k2) := by
  haveI : IsTotal String (fun a b => strLe a b = true) :=
    ⟨fun a b => charsLe_total a.data b.data⟩
  haveI : IsTrans String (fun a b => strLe a b = true) :=
    ⟨fun _ _ _ h1 h2 => charsLe_trans h1 h2⟩
  unfold pruneWeeks
  by_cases hgt : (weeks.map Prod.fst).length > keep
  · rw [if_pos hgt]
    have hperm := List.perm_insertionSort (fun a b => strLe a b = true)
      (weeks.map Prod.fst)
    have hsortnd : (List.insertionSort (fun a b => strLe a b = true)
        (weeks.map Prod.fst)).Nodup := hperm.nodup_iff.mpr hnd
    have hpwlt : (List.insertionSort (fun a b => strLe a b = true)
        (weeks.map Prod.fst)).Pairwise
          (fun a b => strLe a b = true ∧ a ≠ b) := by
      have hs := List.sorted_insertionSort (fun a b => strLe a b = true)
        (weeks.map Prod.fst)
      exact (List.Pairwise.and hs hsortnd).imp (fun hab => hab)
    have hDnd : ((List.insertionSort (fun a b => strLe a b = true)
        (weeks.map Prod.fst)).take ((weeks.map Prod.fst).length - keep)).Nodup :=
      (List.take_sublist _ _).nodup hsortnd
    have hDsub : ∀ d ∈ (List.insertionSort (fun a b => strLe a b = true)
        (weeks.map Prod.fst)).take ((weeks.map Prod.fst).length - keep),
        d ∈ weeks.map Prod.fst := by
      intro d hd
      exact hperm.mem_iff.mp ((List.take_sublist _ _).subset hd)
    have hDlen : ((List.insertionSort (fun a b => strLe a b = true)
        (weeks.map Prod.fst)).take ((weeks.map Prod.fst).length - keep)).length
        = (weeks.map Prod.fst).length - keep := by
      rw [List.length_take, hperm.length_eq]
      exact min_eq_left (Nat.sub_le _ _)
    have hmapfst := map_fst_filter_key weeks (fun x =>
      !(((List.insertionSort (fun a b => strLe a b = true)
        (weeks.map Prod.fst)).take ((weeks.map Prod.fst).length - keep)).contains x))
    refine ⟨?_, ?_, ?_⟩
    · have hlen1 : (weeks.filter (fun e =>
          !(((List.insertionSort (fun a b => strLe a b = true)
            (weeks.map Prod.fst)).take
            ((weeks.map Prod.fst).length - keep)).contains e.1))).length
          = ((weeks.map Prod.fst).filter (fun x =>
            !(((List.insertionSort (fun a b => strLe a b = true)
              (weeks.map Prod.fst)).take
              ((weeks.map Prod.fst).length - keep)).contains x))).length := by
        rw [← hmapfst]
        exact (List.length_map _ _).symm
      rw [hlen1]
      have hfilnd := List.Nodup.filter (fun x =>
        !(((List.insertionSort (fun a b => strLe a b = true)
          (weeks.map Prod.fst)).take
          ((weeks.map Prod.fst).length - keep)).contains x)) hnd
      have hc1 := List.toFinset_card_of_nodup hfilnd
      rw [← hc1, List.toFinset_filter]
      have hcsplit := Finset.filter_card_add_filter_neg_card_eq_card
        (s := (weeks.map Prod.fst).toFinset)
        (p := fun x =>
          (!(((List.insertionSort (fun a b => strLe a b = true)
            (weeks.map Prod.fst)).take
            ((weeks.map Prod.fst).length - keep)).contains x)) = true)
      have hnegeq : Finset.filter (fun x =>
          ¬ ((!(((List.insertionSort (fun a b => strLe a b = true)
            (weeks.map Prod.fst)).take
            ((weeks.map Prod.fst).length - keep)).contains x)) = true))
          (weeks.map Prod.fst).toFinset
          = ((List.insertionSort (fun a b => strLe a b = true)
            (weeks.map Prod.fst)).take
            ((weeks.map Prod.fst).length - keep)).toFinset := by
        apply Finset.ext
        intro x
        simp only [Finset.mem_filter, List.mem_toFinset]
        constructor
        · intro hx
          have := hx.2
          simpa using this
        · intro hx
          exact ⟨hDsub x hx, by simpa using hx⟩
      rw [hnegeq] at hcsplit
      have hDcard := List.toFinset_card_of_nodup hDnd
      have hkcard := List.toFinset_card_of_nodup hnd
      rw [hDcard, hDlen, hkcard] at hcsplit
      have hwlen : (weeks.map Prod.fst).length = weeks.length := List.length_map _ _
      rw [hwlen] at hcsplit hgt ⊢
      have hmin : min keep weeks.length = keep := min_eq_left (le_of_lt hgt)
      omega
    · intro e he
      exact List.mem_of_mem_filter he
    · intro k hk hknot k2 hk2
      rw [hmapfst] at hknot hk2
      have hkD : k ∈ (List.insertionSort (fun a b => strLe a b = true)
          (weeks.map Prod.fst)).take ((weeks.map Prod.fst).length - keep) := by
        by_contra hkd
        exact hknot (List.mem_filter.mpr ⟨hk, by simpa using hkd⟩)
      have hk2mem : k2 ∈ weeks.map Prod.fst := (List.mem_filter.mp hk2).1
      have hk2not : k2 ∉ (List.insertionSort (fun a b => strLe a b = true)
          (weeks.map Prod.fst)).take ((weeks.map Prod.fst).length - keep) := by
        have := (List.mem_filter.mp hk2).2
        simpa using this
      have hk2sort : k2 ∈ List.insertionSort (fun a b => strLe a b = true)
          (weeks.map Prod.fst) := hperm.mem_iff.mpr hk2mem
      have hk2drop : k2 ∈ (List.insertionSort (fun a b => strLe a b = true)
          (weeks.map Prod.fst)).drop ((weeks.map Prod.fst).length - keep) := by
        have hsplit : List.insertionSort (fun a b => strLe a b = true)
            (weeks.map Prod.fst)
            = (List.insertionSort (fun a b => strLe a b = true)
                (weeks.map Prod.fst)).take ((weeks.map Prod.fst).length - keep)
              ++ (List.insertionSort (fun a b => strLe a b = true)
                (weeks.map Prod.fst)).drop ((weeks.map Prod.fst).length - keep) :=
          (List.take_append_drop _ _).symm
        rcases List.mem_append.mp (hsplit ▸ hk2sort) with h | h
        · exact absurd h hk2not
        · exact h
      have hpw2 := hpwlt
      rw [← List.take_append_drop ((weeks.map Prod.fst).length - keep)
        (List.insertionSort (fun a b => strLe a b = true)
          (weeks.map Prod.fst))] at hpw2
      obtain ⟨_, _, hcross⟩ := List.pairwise_append.mp hpw2
      exact hcross k hkD k2 hk2drop
  · rw [if_neg hgt]
    refine ⟨?_, fun e he => he, ?_⟩
    · have hwlen : (weeks.map Prod.fst).length = weeks.length := List.length_map _ _
      rw [hwlen] at hgt
      omega
    · intro k hk hknot k2 hk2
      exact absurd hk hknot

/-- C7: adding a report's URLs to the history and pruning leaves at most
`keepWeeks` week keys; the surviving entries are entries of the
pre-prune map, their number is exactly `min keepWeeks n`, and every
dropped key is lexicographically strictly smaller than every retained
key — the retained keys are exactly the lexicographically greatest. -/
theorem C7_addReportUrls_prunes (history : SeenHistory) (weekKey : String)
    (report : WeeklyReport) (keepWeeks : Nat) (now : String)
    (hnd : (history.weeks.map Prod.fst).Nodup) :
    ((addReportUrlsToHistory history weekKey report keepWeeks now).weeks.length
        ≤ keepWeeks)
    ∧ ((addReportUrlsToHistory history weekKey report keepWeeks now).weeks.length
        = min keepWeeks (updateWeeks history weekKey report now).weeks.length)
    ∧ (∀ e ∈ (addReportUrlsToHistory history weekKey report keepWeeks now).weeks,
        e ∈ (updateWeeks history weekKey report now).weeks)
    ∧ (∀ k ∈ (updateWeeks history weekKey report now).weeks.map Prod.fst,
        k ∉ (addReportUrlsToHistory history weekKey report keepWeeks now).weeks.map Prod.fst →
        ∀ k2 ∈ (addReportUrlsToHistory history weekKey report keepWeeks now).weeks.map Prod.fst,
          strLe k k2 = true ∧ k ≠ k2) := by
  have hmidnd : ((updateWeeks history weekKey report now).weeks.map Prod.fst).Nodup := by
    unfold updateWeeks
    exact setAssoc_keys_nodup weekKey _ hnd
  obtain ⟨h1, h2, h3⟩ := pruneWeeks_spec
    (updateWeeks history weekKey report now).weeks keepWeeks hmidnd
  have hout : (addReportUrlsToHistory history weekKey report keepWeeks now).weeks
      = pruneWeeks (updateWeeks history weekKey report now).weeks keepWeeks := rfl
  refine ⟨?_, ?_, ?_, ?_⟩
  · rw [hout, h1]
    exact min_le_left _ _
  · rw [hout, h1]
  · intro e he
    exact h2 e (by rwa [hout] at he)
  · intro k hk hknot k2 hk2
    exact h3 k hk (by rwa [hout] at hknot) k2 (by rwa [hout] at hk2)

/-- Witness for C7 on the spec scenario: `keepWeeks = 2` with three week
keys present after the add retains exactly the two lexicographically
greatest keys. -/
theorem C7_witness :
    (histC7.weeks.map Prod.fst).Nodup
    ∧ (addReportUrlsToHistory histC7 "2026-W03" repC3 2 "ts").weeks.map Prod.fst
        = ["2026-W02", "2026-W03"]
    ∧ (addReportUrlsToHistory histC7 "2026-W03" repC3 2 "ts").weeks.length ≤ 2 :=
  ⟨by decide, by decide,
    (C7_addReportUrls_prunes histC7 "2026-W03" repC3 2 "ts" (by decide)).1⟩
theorem find_map_set_ne {α : Type} (m : List (String × α)) (k c : String)
    (v : α) (hne : ¬ c = k) :
    (m.map (fun e => if e.1 = k then (k, v) else e)).find? (fun e => e.1 = c)
      = m.find? (fun e => e.1 = c) := by
  induction m with
  | nil => rfl
  | cons e es ih =>
    simp only [List.map_cons]
    by_cases hek : e.1 = k
    · rw [if_pos hek]
      have h1 : ¬ ((k, v).1 = c) := fun h => hne h.symm
      have h2 : ¬ (e.1 = c) := by rw [hek]; exact fun h => hne h.symm
      rw [List.find?_cons_of_neg _ (by simpa using h1),
        List.find?_cons_of_neg _ (by simpa using h2)]
      exact ih
    · rw [if_neg hek]
      by_cases hec : e.1 = c
      · rw [List.find?_cons_of_pos _ (by simpa using hec)]
        rw [List.find?_cons_of_pos _ (by simpa using hec)]
      · rw [List.find?_cons_of_neg _ (by simpa using hec),
          List.find?_cons_of_neg _ (by simpa using hec)]
        exact ih

theorem find_map_set_eq {α : Type} (m : List (String × α)) (k : String)
    (v : α) (hany : m.any (fun e => e.1 = k) = true) :
    (m.map (fun e => if e.1 = k then (k, v) else e)).find? (fun e => e.1 = k)
      = some (k, v) := by
  induction m with
  | nil => simp at hany
  | cons e es ih =>
    simp only [List.map_cons]
    by_cases hek : e.1 = k
    · rw [if_pos hek]
      rw [List.find?_cons_of_pos _ (by simp)]
    · rw [if_neg hek]
      rw [List.find?_cons_of_neg _ (by simpa using hek)]
      apply ih
      rw [List.any_cons] at hany
      simpa [hek] using hany

theorem lookupAssoc_setAssoc_ne {α : Type} (m : List (String × α))
    (k c : String) (v : α) (hne : ¬ c = k) :
    lookupAssoc (setAssoc m k v) c = lookupAssoc m c := by
  unfold lookupAssoc setAssoc
  by_cases hany : m.any (fun e => e.1 = k) = true
  · rw [if_pos hany, find_map_set_ne m k c v hne]
  · rw [if_neg hany, List.find?_append]
    have hkc : ¬ k = c := fun h => hne h.symm
    have hnone : ([(k, v)].find? (fun e => e.1 = c)) = none := by
      simp [hkc]
    rw [hnone]
    cases m.find? (fun e => e.1 = c) <;> rfl

theorem lookupAssoc_setAssoc_eq {α : Type} (m : List (String × α))
    (k : String) (v : α) :
    lookupAssoc (setAssoc m k v) k = some v := by
  unfold lookupAssoc setAssoc
  by_cases hany : m.any (fun e => e.1 = k) = true
  · rw [if_pos hany, find_map_set_eq m k v hany]
    rfl
  · rw [if_neg hany, List.find?_append]
    have hnone : m.find? (fun e => e.1 = k) = none := by
      rw [List.find?_eq_none]
      intro e he
      rw [List.any_eq_true] at hany
      push_neg at hany
      simpa using hany e he
    rw [hnone]
    simp

theorem toFinset_append_cons_union (A B : List String) (k : String) :
    (A ++ [k]).toFinset ∪ B.toFinset = A.toFinset ∪ (k :: B).toFinset := by
  ext x
  simp only [Finset.mem_union, List.mem_toFinset, List.mem_append,
    List.mem_cons, List.mem_singleton]
  tauto

theorem dedupe_fold_inv (l : List CategoryUpdate) :
    ∀ (acc : List CategoryUpdate),
    (l.foldl dedupeCompanyStep (acc, companyKeys acc)).2
        = companyKeys (l.foldl dedupeCompanyStep (acc, companyKeys acc)).1
    ∧ (companyKeys (l.foldl dedupeCompanyStep (acc, companyKeys acc)).1).toFinset
        = (companyKeys acc).toFinset ∪ (companyKeys l).toFinset
    ∧ ((companyKeys acc).Nodup →
        (companyKeys (l.foldl dedupeCompanyStep (acc, companyKeys acc)).1).Nodup) := by
  induction l with
  | nil =>
    intro acc
    refine ⟨rfl, by simp [companyKeys], fun h => h⟩
  | cons u us ih =>
    intro acc
    simp only [List.foldl_cons]
    by_cases hk : (companyKeys acc).contains (normalizeCompanyKey u.company) = true
    · have hmem : normalizeCompanyKey u.company ∈ companyKeys acc := by
        simpa using hk
      have hstep : dedupeCompanyStep (acc, companyKeys acc)
          u = (acc, companyKeys acc) := by
        simp [dedupeCompanyStep, hmem]
      rw [hstep]
      obtain ⟨h1, h2, h3⟩ := ih acc
      refine ⟨h1, ?_, h3⟩
      rw [h2]
      have hins : (companyKeys (u :: us)).toFinset
          = insert (normalizeCompanyKey u.company) (companyKeys us).toFinset := by
        simp [companyKeys]
      rw [hins, Finset.union_insert,
        Finset.insert_eq_self.mpr
          (Finset.mem_union_left _ (List.mem_toFinset.mpr hmem))]
    · have hnmem : normalizeCompanyKey u.company ∉ companyKeys acc := by
        simpa using hk
      have hck : companyKeys (acc ++ [u])
          = companyKeys acc ++ [normalizeCompanyKey u.company] := by
        simp [companyKeys]
      have hstep : dedupeCompanyStep (acc, companyKeys acc) u
          = (acc ++ [u], companyKeys (acc ++ [u])) := by
        rw [hck]
        simp [dedupeCompanyStep, hnmem]
      rw [hstep]
      obtain ⟨h1, h2, h3⟩ := ih (acc ++ [u])
      refine ⟨h1, ?_, ?_⟩
      · rw [h2, hck]
        exact toFinset_append_cons_union (companyKeys acc) (companyKeys us) _
      · intro hnd
        apply h3
        rw [hck]
        rw [List.nodup_append]
        refine ⟨hnd, List.nodup_singleton _, ?_⟩
        intro a ha
        simp only [List.mem_singleton]
        intro hak
        subst hak
        exact absurd (by simpa using ha) (by simpa using hk)

theorem dedupe_keys_toFinset (l : List CategoryUpdate) :
    (companyKeys (dedupeFirstByCompanyKey l)).toFinset
      = (companyKeys l).toFinset := by
  have h := (dedupe_fold_inv l []).2.1
  unfold dedupeFirstByCompanyKey
  have hnil : companyKeys ([] : List CategoryUpdate) = [] := rfl
  rw [← hnil]
  rw [h, hnil]
  simp

theorem dedupe_keys_nodup (l : List CategoryUpdate) :
    (companyKeys (dedupeFirstByCompanyKey l)).Nodup := by
  have h := (dedupe_fold_inv l []).2.2
  unfold dedupeFirstByCompanyKey
  have hnil : companyKeys ([] : List CategoryUpdate) = [] := rfl
  rw [← hnil]
  exact h (by rw [hnil]; exact List.nodup_nil)

theorem dedupe_distinctCount (l : List CategoryUpdate) :
    distinctCompanyCount (dedupeFirstByCompanyKey l) = distinctCompanyCount l := by
  unfold distinctCompanyCount
  rw [dedupe_keys_toFinset]

theorem dedupe_length (l : List CategoryUpdate) :
    (dedupeFirstByCompanyKey l).length = distinctCompanyCount l := by
  have h1 : (dedupeFirstByCompanyKey l).length
      = (companyKeys (dedupeFirstByCompanyKey l)).length :=
    (List.length_map _ _).symm
  rw [h1, ← List.toFinset_card_of_nodup (dedupe_keys_nodup l),
    dedupe_keys_toFinset]
  rfl

theorem foldl_fst_append {β : Type}
    (f : List CategoryUpdate × List String → β → List CategoryUpdate × List String)
    (hf : ∀ acc b, ∃ t, (f acc b).1 = acc.1 ++ t) :
    ∀ (l : List β) (acc : List CategoryUpdate × List String),
    ∃ t, (l.foldl f acc).1 = acc.1 ++ t := by
  intro l
  induction l with
  | nil => exact fun acc => ⟨[], by simp⟩
  | cons b bs ih =>
    intro acc
    obtain ⟨t1, h1⟩ := hf acc b
    obtain ⟨t2, h2⟩ := ih (f acc b)
    exact ⟨t1 ++ t2, by rw [List.foldl_cons, h2, h1, List.append_assoc]⟩

theorem geminiStep_extends (mx : Nat) (acc : List CategoryUpdate × List String)
    (e : String × SourceItem) : ∃ t, (geminiStep mx acc e).1 = acc.1 ++ t := by
  unfold geminiStep
  split_ifs with h1 h2
  · exact ⟨[], by simp⟩
  · exact ⟨[], by simp⟩
  · exact ⟨[mkUpdateFromSource e.2], rfl⟩

theorem processCategoryGemini_extends (mx : Nat) (ded : List CategoryUpdate)
    (src : List SourceItem) :
    ∃ t, processCategoryGemini mx ded src = ded.take mx ++ t := by
  unfold processCategoryGemini
  exact foldl_fst_append (geminiStep mx) (geminiStep_extends mx) _ _

theorem distinctCompanyCount_append_le (l1 l2 : List CategoryUpdate) :
    distinctCompanyCount l1 ≤ distinctCompanyCount (l1 ++ l2) := by
  unfold distinctCompanyCount
  have h : companyKeys (l1 ++ l2) = companyKeys l1 ++ companyKeys l2 := by
    simp [companyKeys]
  rw [h, List.toFinset_append]
  exact Finset.card_le_card Finset.subset_union_left

theorem fillCatStep_lookup_ne (config : ResearchConfig)
    (companyHq : List (String × String)) (sources : List SourceItem)
    (rep : WeeklyReport) (cat : CategoryConfig) (c : String)
    (hne : ¬ c = cat.id) :
    lookupAssoc (fillCatStep config companyHq sources rep cat).category_updates c
      = lookupAssoc rep.category_updates c := by
  unfold fillCatStep
  exact lookupAssoc_setAssoc_ne _ _ _ _ hne

theorem fillCatStep_distinct (config : ResearchConfig)
    (companyHq : List (String × String)) (sources : List SourceItem)
    (rep : WeeklyReport) (cat : CategoryConfig)
    (hprov : config.source_provider = SourceProvider.gemini_grounded)
    (hcap : distinctCompanyCount
        ((lookupAssoc rep.category_updates cat.id).getD [])
      ≤ config.max_companies_per_category) :
    distinctCompanyCount ((lookupAssoc rep.category_updates cat.id).getD [])
      ≤ distinctCompanyCount
        ((lookupAssoc
          (fillCatStep config companyHq sources rep cat).category_updates
          cat.id).getD []) := by
  have hlk : lookupAssoc
      (fillCatStep config companyHq sources rep cat).category_updates cat.id
      = some (fillCatFinal config companyHq sources rep cat) := by
    unfold fillCatStep
    exact lookupAssoc_setAssoc_eq _ _ _
  rw [hlk]
  show distinctCompanyCount ((lookupAssoc rep.category_updates cat.id).getD [])
    ≤ distinctCompanyCount (fillCatFinal config companyHq sources rep cat)
  have hmode : ¬ (config.source_provider = SourceProvider.searchapi_google_news) := by
    rw [hprov]
    intro h
    exact SourceProvider.noConfusion h
  unfold fillCatFinal
  dsimp only
  rw [if_neg hmode]
  by_cases hempty : (((sources.filter (fun s => s.category == cat.id)).filter
      (fun s => isLikelyKoreanCompany s.company companyHq)).isEmpty) = true
  · rw [if_pos hempty, dedupe_distinctCount]
  · rw [if_neg hempty, if_neg hmode]
    obtain ⟨t, ht⟩ := processCategoryGemini_extends
      config.max_companies_per_category
      (dedupeFirstByCompanyKey ((lookupAssoc rep.category_updates cat.id).getD []))
      (((sources.filter (fun s => s.category == cat.id)).filter
        (fun s => isLikelyKoreanCompany s.company companyHq)))
    rw [ht]
    have htake : (dedupeFirstByCompanyKey
        ((lookupAssoc rep.category_updates cat.id).getD [])).take
          config.max_companies_per_category
        = dedupeFirstByCompanyKey
          ((lookupAssoc rep.category_updates cat.id).getD []) := by
      apply List.take_of_length_le
      rw [dedupe_length]
      exact hcap
    rw [htake]
    calc distinctCompanyCount ((lookupAssoc rep.category_updates cat.id).getD [])
        = distinctCompanyCount (dedupeFirstByCompanyKey
            ((lookupAssoc rep.category_updates cat.id).getD [])) :=
          (dedupe_distinctCount _).symm
      _ ≤ _ := distinctCompanyCount_append_le _ _

theorem fillCat_fold_distinct (config : ResearchConfig)
    (companyHq : List (String × String)) (sources : List SourceItem)
    (hprov : config.source_provider = SourceProvider.gemini_grounded) :
    ∀ (cats : List CategoryConfig) (rep : WeeklyReport),
    (cats.map CategoryConfig.id).Nodup →
    (∀ cat ∈ cats, distinctCompanyCount
        ((lookupAssoc rep.category_updates cat.id).getD [])
      ≤ config.max_companies_per_category) →
    ∀ c, distinctCompanyCount ((lookupAssoc rep.category_updates c).getD [])
      ≤ distinctCompanyCount
        ((lookupAssoc
          (cats.foldl (fillCatStep config companyHq sources) rep).category_updates
          c).getD []) := by
  intro cats
  induction cats with
  | nil => exact fun rep _ _ c => le_refl _
  | cons cat cats ih =>
    intro rep hnd hcap c
    rw [List.foldl_cons]
    have hndt : (cats.map CategoryConfig.id).Nodup :=
      (List.nodup_cons.mp (by simpa using hnd)).2
    have hhead : cat.id ∉ cats.map CategoryConfig.id :=
      (List.nodup_cons.mp (by simpa using hnd)).1
    have hcapt : ∀ cat2 ∈ cats, distinctCompanyCount
        ((lookupAssoc
          (fillCatStep config companyHq sources rep cat).category_updates
          cat2.id).getD [])
        ≤ config.max_companies_per_category := by
      intro cat2 h2
      have hne : ¬ cat2.id = cat.id := by
        intro he
        exact hhead (he ▸ List.mem_map_of_mem CategoryConfig.id h2)
      rw [fillCatStep_lookup_ne config companyHq sources rep cat cat2.id hne]
      exact hcap cat2 (List.mem_cons_of_mem _ h2)
    have hstep : distinctCompanyCount
        ((lookupAssoc rep.category_updates c).getD [])
        ≤ distinctCompanyCount
          ((lookupAssoc
            (fillCatStep config companyHq sources rep cat).category_updates
            c).getD []) := by
      by_cases hc : c = cat.id
      · subst hc
        exact fillCatStep_distinct config companyHq sources rep cat hprov
          (hcap cat (List.mem_cons_self _ _))
      · rw [fillCatStep_lookup_ne config companyHq sources rep cat c hc]
    exact le_trans hstep
      (ih (fillCatStep config companyHq sources rep cat) hndt hcapt c)

theorem fillOverseasPhase_cats (config : ResearchConfig)
    (companyHq : List (String × String)) (sources : List SourceItem)
    (copy : WeeklyReport) :
    (fillOverseasPhase config companyHq sources copy).category_updates
      = copy.category_updates := by
  unfold fillOverseasPhase
  split
  · rfl
  · rfl

theorem actionPhase_cats (copy : WeeklyReport) :
    (actionPhase copy).category_updates = copy.category_updates := by
  unfold actionPhase
  split
  · rfl
  · rfl

/-- C2 counterexample: with `max_companies_per_category = 1` and a
category already holding two distinct companies plus one domestic
evidence item for that category, the filler's output keeps only one
distinct company — strictly fewer than the input's two. -/
theorem C2_counterexample :
    distinctCompanyCount
      ((lookupAssoc
        (fillReportFromSourcesFallback repC2 [srcC2] cfgC2 hqC2).category_updates
        "CAT-A").getD [])
      < distinctCompanyCount ((lookupAssoc repC2.category_updates "CAT-A").getD []) := by
  decide

/-- C2 (amended): with the grounded-oracle provider, distinct category
ids, and every category's distinct-company count within
`max_companies_per_category`, `fillReportFromSourcesFallback` never
decreases the number of distinct companies of any category's update
list. -/
theorem C2_fill_distinct_companies (report : WeeklyReport)
    (sources : List SourceItem) (config : ResearchConfig)
    (companyHq : List (String × String))
    (hprov : config.source_provider = SourceProvider.gemini_grounded)
    (hnd : (config.categories.map CategoryConfig.id).Nodup)
    (hcap : ∀ cat ∈ config.categories, distinctCompanyCount
        ((lookupAssoc report.category_updates cat.id).getD [])
      ≤ config.max_companies_per_category) :
    ∀ c, distinctCompanyCount ((lookupAssoc report.category_updates c).getD [])
      ≤ distinctCompanyCount
        ((lookupAssoc
          (fillReportFromSourcesFallback report sources config
            companyHq).category_updates c).getD []) := by
  intro c
  unfold fillReportFromSourcesFallback weeklyReportSchemaParse
  rw [actionPhase_cats, fillOverseasPhase_cats]
  exact fillCat_fold_distinct config companyHq sources hprov
    config.categories report hnd hcap c

/-- Witness for the amended C2 on a concrete run whose cap (2) covers
the category's two distinct companies. -/
theorem C2_witness :
    cfgC2w.source_provider = SourceProvider.gemini_grounded
    ∧ (cfgC2w.categories.map CategoryConfig.id).Nodup
    ∧ (∀ cat ∈ cfgC2w.categories, distinctCompanyCount
        ((lookupAssoc repC2.category_updates cat.id).getD [])
      ≤ cfgC2w.max_companies_per_category)
    ∧ distinctCompanyCount ((lookupAssoc repC2.category_updates "CAT-A").getD [])
      ≤ distinctCompanyCount
        ((lookupAssoc
          (fillReportFromSourcesFallback repC2 [srcC2] cfgC2w
            hqC2).category_updates "CAT-A").getD []) :=
  ⟨rfl, by decide, by decide,
    C2_fill_distinct_companies repC2 [srcC2] cfgC2w hqC2 rfl (by decide)
      (by decide) "CAT-A"⟩
theorem splitItemsGo_cons_keep (companyHq : List (String × String))
    (cat : String) (u : CategoryUpdate) (us : List CategoryUpdate)
    (ov : List OverseasUpdate) (seen : List String)
    (hkd : keepDomestic companyHq u = true) :
    splitItemsGo companyHq cat (u :: us) ov seen
      = (u :: (splitItemsGo companyHq cat us ov seen).1,
         (splitItemsGo companyHq cat us ov seen).2.1,
         (splitItemsGo companyHq cat us ov seen).2.2) := by
  unfold keepDomestic at hkd
  cases hgc : getCountry companyHq u.company with
  | none => simp [splitItemsGo, hgc]
  | some c =>
    rw [hgc] at hkd
    have hkd2 : isKoreaCountryLabel c = true := hkd
    simp [splitItemsGo, hgc, hkd2]

theorem splitItemsGo_cons_drop (companyHq : List (String × String))
    (cat : String) (u : CategoryUpdate) (us : List CategoryUpdate)
    (ov : List OverseasUpdate) (seen : List String) (c : String)
    (hgc : getCountry companyHq u.company = some c)
    (hkl : isKoreaCountryLabel c = false) (hturl : truthy u.url = false) :
    splitItemsGo companyHq cat (u :: us) ov seen
      = splitItemsGo companyHq cat us ov seen := by
  simp [splitItemsGo, hgc, hkl, hturl]

theorem splitItemsGo_cons_dup (companyHq : List (String × String))
    (cat : String) (u : CategoryUpdate) (us : List CategoryUpdate)
    (ov : List OverseasUpdate) (seen : List String) (c : String)
    (hgc : getCountry companyHq u.company = some c)
    (hkl : isKoreaCountryLabel c = false) (hturl : truthy u.url = true)
    (hseen : seen.contains (augKey u.company u.title) = true) :
    splitItemsGo companyHq cat (u :: us) ov seen
      = splitItemsGo companyHq cat us ov seen := by
  have hseen2 : augKey u.company u.title ∈ seen := by simpa using hseen
  simp [splitItemsGo, hgc, hkl, hturl, hseen2]

theorem splitItemsGo_cons_push (companyHq : List (String × String))
    (cat : String) (u : CategoryUpdate) (us : List CategoryUpdate)
    (ov : List OverseasUpdate) (seen : List String) (c : String)
    (hgc : getCountry companyHq u.company = some c)
    (hkl : isKoreaCountryLabel c = false) (hturl : truthy u.url = true)
    (hseen : seen.contains (augKey u.company u.title) = false) :
    splitItemsGo companyHq cat (u :: us) ov seen
      = splitItemsGo companyHq cat us
          (ov ++ [⟨u.company, some c, some cat, u.tag, u.title, u.url, u.insight⟩])
          (seen ++ [augKey u.company u.title]) := by
  have hseen2 : augKey u.company u.title ∉ seen := by simpa using hseen
  simp [splitItemsGo, hgc, hkl, hturl, hseen2]

theorem keepDomestic_false_inv (companyHq : List (String × String))
    (u : CategoryUpdate) (hkd : keepDomestic companyHq u = false) :
    ∃ c, getCountry companyHq u.company = some c
      ∧ isKoreaCountryLabel c = false := by
  unfold keepDomestic at hkd
  cases hgc : getCountry companyHq u.company with
  | none => rw [hgc] at hkd; simp at hkd
  | some c =>
    rw [hgc] at hkd
    exact ⟨c, rfl, hkd⟩

theorem splitItemsGo_cases (companyHq : List (String × String))
    (cat : String) (u : CategoryUpdate) (us : List CategoryUpdate)
    (ov : List OverseasUpdate) (seen : List String)
    (hkd : keepDomestic companyHq u = false) :
    splitItemsGo companyHq cat (u :: us) ov seen
        = splitItemsGo companyHq cat us ov seen
    ∨ ∃ c, getCountry companyHq u.company = some c
        ∧ isKoreaCountryLabel c = false
        ∧ splitItemsGo companyHq cat (u :: us) ov seen
          = splitItemsGo companyHq cat us
            (ov ++ [⟨u.company, some c, some cat, u.tag, u.title, u.url, u.insight⟩])
            (seen ++ [augKey u.company u.title]) := by
  obtain ⟨c, hgc, hkl⟩ := keepDomestic_false_inv companyHq u hkd
  by_cases hturl : truthy u.url = true
  · by_cases hseen : seen.contains (augKey u.company u.title) = true
    · exact Or.inl (splitItemsGo_cons_dup companyHq cat u us ov seen c hgc hkl hturl hseen)
    · exact Or.inr ⟨c, hgc, hkl,
        splitItemsGo_cons_push companyHq cat u us ov seen c hgc hkl hturl
          (by simpa using hseen)⟩
  · exact Or.inl (splitItemsGo_cons_drop companyHq cat u us ov seen c hgc hkl
      (by simpa using hturl))

theorem splitItemsGo_fst (companyHq : List (String × String)) (cat : String) :
    ∀ (items : List CategoryUpdate) (ov : List OverseasUpdate)
      (seen : List String),
    (splitItemsGo companyHq cat items ov seen).1
      = items.filter (keepDomestic companyHq) := by
  intro items
  induction items with
  | nil => intro ov seen; rfl
  | cons u us ih =>
    intro ov seen
    by_cases hkd : keepDomestic companyHq u = true
    · rw [splitItemsGo_cons_keep companyHq cat u us ov seen hkd]
      simp only [List.filter_cons, hkd, if_true]
      rw [ih]
    · have hkd2 : keepDomestic companyHq u = false := by simpa using hkd
      have hfil : (u :: us).filter (keepDomestic companyHq)
          = us.filter (keepDomestic companyHq) := by
        simp [List.filter_cons, hkd2]
      rw [hfil]
      rcases splitItemsGo_cases companyHq cat u us ov seen hkd2 with
        hstep | ⟨c, _, _, hstep⟩
      · rw [hstep, ih]
      · rw [hstep, ih]

theorem splitItemsGo_seen_mono (companyHq : List (String × String))
    (cat : String) :
    ∀ (items : List CategoryUpdate) (ov : List OverseasUpdate)
      (seen : List String) (x : String), x ∈ seen →
    x ∈ (splitItemsGo companyHq cat items ov seen).2.2 := by
  intro items
  induction items with
  | nil => intro ov seen x hx; exact hx
  | cons u us ih =>
    intro ov seen x hx
    by_cases hkd : keepDomestic companyHq u = true
    · rw [splitItemsGo_cons_keep companyHq cat u us ov seen hkd]
      exact ih ov seen x hx
    · rcases splitItemsGo_cases companyHq cat u us ov seen (by simpa using hkd)
        with hstep | ⟨c, _, _, hstep⟩
      · rw [hstep]
        exact ih ov seen x hx
      · rw [hstep]
        exact ih _ _ x (List.mem_append_left _ hx)

theorem splitItemsGo_inv (companyHq : List (String × String)) (cat : String) :
    ∀ (items : List CategoryUpdate) (ov : List OverseasUpdate)
      (seen : List String), seen = ov.map ovKey →
    (splitItemsGo companyHq cat items ov seen).2.2
      = (splitItemsGo companyHq cat items ov seen).2.1.map ovKey := by
  intro items
  induction items with
  | nil => intro ov seen hinv; exact hinv
  | cons u us ih =>
    intro ov seen hinv
    by_cases hkd : keepDomestic companyHq u = true
    · rw [splitItemsGo_cons_keep companyHq cat u us ov seen hkd]
      exact ih ov seen hinv
    · rcases splitItemsGo_cases companyHq cat u us ov seen (by simpa using hkd)
        with hstep | ⟨c, _, _, hstep⟩
      · rw [hstep]
        exact ih ov seen hinv
      · rw [hstep]
        apply ih
        rw [hinv, List.map_append]
        rfl

theorem splitItemsGo_qual (companyHq : List (String × String)) (cat : String) :
    ∀ (items : List CategoryUpdate) (ov : List OverseasUpdate)
      (seen : List String), ∀ u ∈ items,
    keepDomestic companyHq u = false → truthy u.url = true →
    augKey u.company u.title
      ∈ (splitItemsGo companyHq cat items ov seen).2.2 := by
  intro items
  induction items with
  | nil => intro ov seen u hu; exact absurd hu (List.not_mem_nil u)
  | cons u0 us ih =>
    intro ov seen u hu hkd hturl
    rcases List.mem_cons.mp hu with heq | htail
    · subst heq
      obtain ⟨c, hgc, hkl⟩ := keepDomestic_false_inv companyHq u hkd
      by_cases hseen : seen.contains (augKey u.company u.title) = true
      · rw [splitItemsGo_cons_dup companyHq cat u us ov seen c hgc hkl hturl hseen]
        exact splitItemsGo_seen_mono companyHq cat us ov seen _
          (by simpa using hseen)
      · rw [splitItemsGo_cons_push companyHq cat u us ov seen c hgc hkl hturl
          (by simpa using hseen)]
        exact splitItemsGo_seen_mono companyHq cat us _ _ _
          (List.mem_append_right _ (List.mem_singleton.mpr rfl))
    · by_cases hkd0 : keepDomestic companyHq u0 = true
      · rw [splitItemsGo_cons_keep companyHq cat u0 us ov seen hkd0]
        exact ih ov seen u htail hkd hturl
      · rcases splitItemsGo_cases companyHq cat u0 us ov seen (by simpa using hkd0)
          with hstep | ⟨c, _, _, hstep⟩
        · rw [hstep]
          exact ih ov seen u htail hkd hturl
        · rw [hstep]
          exact ih _ _ u htail hkd hturl

theorem splitItemsGo_prov (companyHq : List (String × String)) (cat : String) :
    ∀ (items : List CategoryUpdate) (ov : List OverseasUpdate)
      (seen : List String),
    ∀ o ∈ (splitItemsGo companyHq cat items ov seen).2.1,
      o ∈ ov ∨ ∃ u ∈ items, ∃ c, getCountry companyHq u.company = some c
        ∧ isKoreaCountryLabel c = false
        ∧ o = ⟨u.company, some c, some cat, u.tag, u.title, u.url, u.insight⟩ := by
  intro items
  induction items with
  | nil => intro ov seen o ho; exact Or.inl ho
  | cons u0 us ih =>
    intro ov seen o ho
    have hlift : (o ∈ ov ∨ ∃ u ∈ us, ∃ c, getCountry companyHq u.company = some c
        ∧ isKoreaCountryLabel c = false
        ∧ o = ⟨u.company, some c, some cat, u.tag, u.title, u.url, u.insight⟩) →
        (o ∈ ov ∨ ∃ u ∈ u0 :: us, ∃ c, getCountry companyHq u.company = some c
        ∧ isKoreaCountryLabel c = false
        ∧ o = ⟨u.company, some c, some cat, u.tag, u.title, u.url, u.insight⟩) := by
      rintro (h | ⟨u, hu, c, h1, h2, h3⟩)
      · exact Or.inl h
      · exact Or.inr ⟨u, List.mem_cons_of_mem _ hu, c, h1, h2, h3⟩
    by_cases hkd0 : keepDomestic companyHq u0 = true
    · rw [splitItemsGo_cons_keep companyHq cat u0 us ov seen hkd0] at ho
      exact hlift (ih ov seen o ho)
    · rcases splitItemsGo_cases companyHq cat u0 us ov seen (by simpa using hkd0)
        with hstep | ⟨c, hgc, hkl, hstep⟩
      · rw [hstep] at ho
        exact hlift (ih ov seen o ho)
      · rw [hstep] at ho
        rcases ih _ _ o ho with hin | hnew
        · rcases List.mem_append.mp hin with hin2 | hin2
          · exact Or.inl hin2
          · exact Or.inr ⟨u0, List.mem_cons_self _ _, c, hgc, hkl,
              by simpa using hin2⟩
        · exact hlift (Or.inr hnew)

theorem splitCatsGo_fst (companyHq : List (String × String)) :
    ∀ (cats : List (String × List CategoryUpdate)) (ov : List OverseasUpdate)
      (seen : List String),
    (splitCatsGo companyHq cats ov seen).1
      = cats.map (fun e => (e.1, e.2.filter (keepDomestic companyHq))) := by
  intro cats
  induction cats with
  | nil => intro ov seen; rfl
  | cons e es ih =>
    intro ov seen
    rw [splitCatsGo]
    simp only [List.map_cons]
    rw [splitItemsGo_fst, ih]

theorem splitCatsGo_seen_mono (companyHq : List (String × String)) :
    ∀ (cats : List (String × List CategoryUpdate)) (ov : List OverseasUpdate)
      (seen : List String) (x : String), x ∈ seen →
    x ∈ (splitCatsGo companyHq cats ov seen).2.2 := by
  intro cats
  induction cats with
  | nil => intro ov seen x hx; exact hx
  | cons e es ih =>
    intro ov seen x hx
    rw [splitCatsGo]
    exact ih _ _ x (splitItemsGo_seen_mono companyHq e.1 e.2 ov seen x hx)

theorem splitCatsGo_inv (companyHq : List (String × String)) :
    ∀ (cats : List (String × List CategoryUpdate)) (ov : List OverseasUpdate)
      (seen : List String), seen = ov.map ovKey →
    (splitCatsGo companyHq cats ov seen).2.2
      = (splitCatsGo companyHq cats ov seen).2.1.map ovKey := by
  intro cats
  induction cats with
  | nil => intro ov seen hinv; exact hinv
  | cons e es ih =>
    intro ov seen hinv
    rw [splitCatsGo]
    exact ih _ _ (splitItemsGo_inv companyHq e.1 e.2 ov seen hinv)

theorem splitCatsGo_qual (companyHq : List (String × String)) :
    ∀ (cats : List (String × List CategoryUpdate)) (ov : List OverseasUpdate)
      (seen : List String), ∀ e ∈ cats, ∀ u ∈ e.2,
    keepDomestic companyHq u = false → truthy u.url = true →
    augKey u.company u.title ∈ (splitCatsGo companyHq cats ov seen).2.2 := by
  intro cats
  induction cats with
  | nil => intro ov seen e he; exact absurd he (List.not_mem_nil e)
  | cons e0 es ih =>
    intro ov seen e he u hu hkd hturl
    rw [splitCatsGo]
    rcases List.mem_cons.mp he with heq | htail
    · subst heq
      exact splitCatsGo_seen_mono companyHq es _ _ _
        (splitItemsGo_qual companyHq e.1 e.2 ov seen u hu hkd hturl)
    · exact ih _ _ e htail u hu hkd hturl

theorem splitCatsGo_prov (companyHq : List (String × String)) :
    ∀ (cats : List (String × List CategoryUpdate)) (ov : List OverseasUpdate)
      (seen : List String),
    ∀ o ∈ (splitCatsGo companyHq cats ov seen).2.1,
      o ∈ ov ∨ ∃ e ∈ cats, ∃ u ∈ e.2, ∃ c,
        getCountry companyHq u.company = some c
        ∧ isKoreaCountryLabel c = false
        ∧ o = ⟨u.company, some c, some e.1, u.tag, u.title, u.url, u.insight⟩ := by
  intro cats
  induction cats with
  | nil => intro ov seen o ho; exact Or.inl ho
  | cons e0 es ih =>
    intro ov seen o ho
    rw [splitCatsGo] at ho
    rcases ih _ _ o ho with hin | ⟨e, he, u, hu, c, h1, h2, h3⟩
    · rcases splitItemsGo_prov companyHq e0.1 e0.2 ov seen o hin with hin2 | ⟨u, hu, c, h1, h2, h3⟩
      · exact Or.inl hin2
      · exact Or.inr ⟨e0, List.mem_cons_self _ _, u, hu, c, h1, h2, h3⟩
    · exact Or.inr ⟨e, List.mem_cons_of_mem _ he, u, hu, c, h1, h2, h3⟩

theorem ovKey_backfill (companyHq : List (String × String))
    (o : OverseasUpdate) :
    ovKey (backfillCountry companyHq o) = ovKey o := by
  unfold backfillCountry
  split
  · rfl
  · split
    · rfl
    · split
      · rfl
      · rfl

/-- C1 counterexample: `Acme` resolves to the non-domestic HQ `USA`,
but because the update has no URL the classifier drops it entirely —
it neither reaches the overseas bucket nor stays in its category. -/
theorem C1_counterexample :
    getCountry hqC1 "Acme" = some "USA"
    ∧ isKoreaCountryLabel "USA" = false
    ∧ (splitOverseasFromCategoryUpdatesByHq repC1
        hqC1).overseas_competitor_updates = []
    ∧ lookupAssoc (splitOverseasFromCategoryUpdatesByHq repC1
        hqC1).category_updates "CAT-A" = some [] := by
  refine ⟨by decide, by decide, by decide, by decide⟩

/-- C1 (amended): the origin classifier keeps exactly the unknown-HQ or
domestic-HQ items in their category buckets, unchanged and in order;
a non-domestic item is removed from its category, and — when it has a
truthy url — its `company|title` key reaches the overseas bucket
(absent truncation at 15); every overseas entry of the output is the
country back-fill of a pre-existing entry or of a moved category item
carrying that item's category, tag, title, URL and insight.  An item
with a falsy url is dropped outright. -/
theorem C1_split_origin (report : WeeklyReport)
    (companyHq : List (String × String)) :
    (splitOverseasFromCategoryUpdatesByHq report companyHq).category_updates
      = report.category_updates.map
        (fun e => (e.1, e.2.filter (keepDomestic companyHq)))
    ∧ ((splitOverseasFromCategoryUpdatesByHq report
          companyHq).overseas_competitor_updates.length < 15 →
        ∀ e ∈ report.category_updates, ∀ u ∈ e.2,
        keepDomestic companyHq u = false → truthy u.url = true →
        augKey u.company u.title ∈ (splitOverseasFromCategoryUpdatesByHq report
          companyHq).overseas_competitor_updates.map ovKey)
    ∧ (∀ o ∈ (splitOverseasFromCategoryUpdatesByHq report
          companyHq).overseas_competitor_updates,
        (∃ o0 ∈ report.overseas_competitor_updates,
          o = backfillCountry companyHq o0)
        ∨ (∃ e ∈ report.category_updates, ∃ u ∈ e.2, ∃ c,
            getCountry companyHq u.company = some c
            ∧ isKoreaCountryLabel c = false
            ∧ o = backfillCountry companyHq
              ⟨u.company, some c, some e.1, u.tag, u.title, u.url, u.insight⟩)) := by
  have hseen0 : report.overseas_competitor_updates.map
      (fun u => augKey u.company u.title)
      = report.overseas_competitor_updates.map ovKey := by
    apply List.map_congr_left
    intro o _
    rfl
  have hovdef : (splitOverseasFromCategoryUpdatesByHq report
      companyHq).overseas_competitor_updates
      = ((splitCatsGo companyHq report.category_updates
          report.overseas_competitor_updates
          (report.overseas_competitor_updates.map ovKey)).2.1.map
        (backfillCountry companyHq)).take 15 := by
    show ((splitCatsGo companyHq report.category_updates
        report.overseas_competitor_updates
        (report.overseas_competitor_updates.map
          (fun u => augKey u.company u.title))).2.1.map
        (backfillCountry companyHq)).take 15 = _
    rw [hseen0]
  refine ⟨?_, ?_, ?_⟩
  · show (splitCatsGo companyHq report.category_updates
        report.overseas_competitor_updates
        (report.overseas_competitor_updates.map
          (fun u => augKey u.company u.title))).1 = _
    exact splitCatsGo_fst companyHq report.category_updates _ _
  · intro hlen e he u hu hkd hturl
    have hkey := splitCatsGo_qual companyHq report.category_updates
      report.overseas_competitor_updates
      (report.overseas_competitor_updates.map ovKey) e he u hu hkd hturl
    have hinv := splitCatsGo_inv companyHq report.category_updates
      report.overseas_competitor_updates
      (report.overseas_competitor_updates.map ovKey) rfl
    rw [hinv] at hkey
    rw [hovdef] at hlen ⊢
    have hlenle : ((splitCatsGo companyHq report.category_updates
        report.overseas_competitor_updates
        (report.overseas_competitor_updates.map ovKey)).2.1.map
        (backfillCountry companyHq)).length ≤ 15 := by
      by_contra hgt
      push_neg at hgt
      rw [List.length_take] at hlen
      omega
    rw [List.take_of_length_le hlenle]
    rw [List.map_map]
    have hcomp : (ovKey ∘ backfillCountry companyHq) = ovKey := by
      funext o
      exact ovKey_backfill companyHq o
    rw [hcomp]
    exact hkey
  · intro o ho
    rw [hovdef] at ho
    have ho2 := (List.take_sublist _ _).subset ho
    obtain ⟨o2, ho2m, heq⟩ := List.mem_map.mp ho2
    rcases splitCatsGo_prov companyHq report.category_updates
      report.overseas_competitor_updates
      (report.overseas_competitor_updates.map ovKey) o2 ho2m with
      hin | ⟨e, he, u, hu, c, h1, h2, h3⟩
    · exact Or.inl ⟨o2, hin, heq.symm⟩
    · refine Or.inr ⟨e, he, u, hu, c, h1, h2, ?_⟩
      rw [← heq, h3]

/-- Witness for the amended C1: the URL-carrying non-domestic `Acme`
update's key reaches the overseas bucket. -/
theorem C1_witness :
    (splitOverseasFromCategoryUpdatesByHq repC1w
        hqC1).overseas_competitor_updates.length < 15
    ∧ keepDomestic hqC1 cuC1w = false
    ∧ truthy cuC1w.url = true
    ∧ augKey "Acme" "T1" ∈ (splitOverseasFromCategoryUpdatesByHq repC1w
        hqC1).overseas_competitor_updates.map ovKey :=
  ⟨by decide, by decide, by decide,
    (C1_split_origin repC1w hqC1).2.1 (by decide) ("CAT-A", [cuC1w]) (by decide)
      cuC1w (by decide) (by decide) (by decide)⟩
